import Mathlib

/-!
Verification of the libsophistry-jpeg shrink module (`src/jpegshrink.c`,
`src/jpegshrink.h`, `src/sophistry_jpeg.c`).

Shallow embedding conventions:
* C byte/word buffers are modelled as total functions `Nat → Nat` (memory
  indexed by sample offset); a store is a pointwise function update.
* `uint16_t` accumulation wraps mod 65536; this is written explicitly.
* The libjpeg-backed decoder (`SPH_JPEG_READER`) is modelled as a state
  machine whose `rows` field lists the outcome of each sequential scanline
  read: `some scan` for a successful decode, `none` for a mid-stream
  decoder failure.
* Loops are fuel-structured recursions where the fuel equals the exact C
  iteration count, so every definition reduces in the kernel.
-/

namespace JpegShrink

/-- Constant `SPH_JPEG_MAXDIM` from sophistry_jpeg.h. -/
def SPH_JPEG_MAXDIM : Nat := 32000

/-- Constant `JPEGSHRINK_MAXSHRINK` from jpegshrink.h. -/
def JPEGSHRINK_MAXSHRINK : Nat := 16

/-- Constant `SPH_JPEG_ERR_OK` from sophistry_jpeg.h. -/
def SPH_JPEG_ERR_OK : Nat := 0

/-- Constant `SPH_JPEG_ERR_READ` from sophistry_jpeg.h. -/
def SPH_JPEG_ERR_READ : Nat := 4

/-- Pointwise update of a memory buffer: the C store `buf[i] = v`. -/
def updAt (f : Nat → Nat) (i v : Nat) : Nat → Nat :=
  fun j => if j = i then v else f j

/-- One accumulator store `pAcc[idx] = pAcc[idx] + v` performed at
integer width `M` (the C code stores into `uint16_t`, i.e. `M = 65536`;
`M = 0` is the ideal unbounded-arithmetic variant, since `x % 0 = x`). -/
def accAddG (M : Nat) (acc : Nat → Nat) (idx v : Nat) : Nat → Nat :=
  updAt acc idx ((acc idx + v) % M)

/-- Add one input pixel (chcount consecutive samples starting at `inOff`)
into the accumulator slots starting at `accOff`.  This is the body of the
`chcount == 3` / `chcount == 1` branches of `jpegshrink_mixscan`: the C
code adds samples `0 .. chcount-1` in increasing order. -/
def addPixelG (M : Nat) (inScan : Nat → Nat) (acc : Nat → Nat)
    (inOff accOff ch : Nat) : Nat → Nat :=
  (List.range ch).foldl (fun a c => accAddG M a (accOff + c) (inScan (inOff + c))) acc

/-- The pointer-walking loop of `jpegshrink_mixscan` (jpegshrink.c lines
170–204).  `fuel` counts the remaining iterations (`padWidth - x`);
`inOff`/`accOff` are the current offsets of the input and accumulator
pointers.  After adding pixel `x`, the pointers advance only when
`x < padWidth - 1`; the accumulator pointer advances when `sval < 2`, or
else when `x % sval >= sval - 1`. -/
def mixscanAuxG (M : Nat) (inScan : Nat → Nat) (ch sval padWidth : Nat) :
    Nat → Nat → Nat → Nat → (Nat → Nat) → (Nat → Nat)
  | 0, _, _, _, acc => acc
  | fuel+1, x, inOff, accOff, acc =>
    let acc1 := addPixelG M inScan acc inOff accOff ch
    if x < padWidth - 1 then
      mixscanAuxG M inScan ch sval padWidth fuel (x+1) (inOff + ch)
        (if sval < 2 then accOff + ch
         else if x % sval ≥ sval - 1 then accOff + ch
         else accOff) acc1
    else acc1

/-- The mixscan loop at integer width `M`, started the way
`jpegshrink_mixscan` starts it: both pointers at offset 0, iterating the
`out_width * sval` padded input pixels. -/
def mixscanG (M : Nat) (inScan : Nat → Nat) (acc : Nat → Nat)
    (out_width sval ch : Nat) : Nat → Nat :=
  mixscanAuxG M inScan ch sval (out_width * sval) (out_width * sval) 0 0 0 acc

/-- Function `jpegshrink_mixscan` (jpegshrink.c): mixes a padded input scanline of
`out_width * sval` pixels into the 16-bit accumulator. -/
def jpegshrink_mixscan (inScan : Nat → Nat) (acc : Nat → Nat)
    (out_width sval ch : Nat) : Nat → Nat :=
  mixscanG 65536 inScan acc out_width sval ch

/-- Canonical flat enumeration of the same additions: pixel `x` of the
padded scanline is added at input offset `x * ch` into accumulator
offset `(x / sval) * ch`.  Used to relate the pointer walk to window
partitioning. -/
def flatMixG (M : Nat) (inScan : Nat → Nat) (ch sval : Nat) :
    Nat → Nat → (Nat → Nat) → (Nat → Nat)
  | 0, _, acc => acc
  | n+1, x, acc =>
    flatMixG M inScan ch sval n (x+1)
      (addPixelG M inScan acc (x * ch) ((x / sval) * ch) ch)

/-- Does the addition of padded input pixel `x` touch accumulator cell `t`? -/
def inWinIdx (sval ch x t : Nat) : Prop :=
  (x / sval) * ch ≤ t ∧ t < (x / sval) * ch + ch

instance (sval ch x t : Nat) : Decidable (inWinIdx sval ch x t) := by
  unfold inWinIdx; infer_instance

/-- The contribution of padded input pixel `x` to accumulator cell `t`. -/
def contribAt (inScan : Nat → Nat) (sval ch x t : Nat) : Nat :=
  if inWinIdx sval ch x t then inScan (x * ch + (t - (x / sval) * ch)) else 0

/-- Mixing re-expressed as explicit window partitioning, following the
spec: iterate the output pixel index `j`, then the `sval` inner input
pixels `j*sval .. j*sval + sval - 1` contributing to it. -/
def mixscanWindowed (M : Nat) (inScan : Nat → Nat) (acc : Nat → Nat)
    (out_width sval ch : Nat) : Nat → Nat :=
  (List.range out_width).foldl
    (fun a j =>
      (List.range sval).foldl
        (fun a2 k => addPixelG M inScan a2 ((j * sval + k) * ch) (j * ch) ch) a)
    acc

/-- One vertical reduction window: mix each scanline of `scans` into the
accumulator in turn (the general path performs exactly `sval` such mixes
between a zeroing and a blit). -/
def vertMixG (M : Nat) (scans : List (Nat → Nat)) (ow sval ch : Nat)
    (acc : Nat → Nat) : Nat → Nat :=
  scans.foldl (fun a sc => mixscanG M sc a ow sval ch) acc

/-- The clamp in `jpegshrink_avgblit`: `if (sv < 0) sv = 0; else if (sv > 255) sv = 255;`. -/
def clampSample (sv : Int) : Int :=
  if sv < 0 then 0 else if sv > 255 then 255 else sv

/-- Function `jpegshrink_avgblit` (jpegshrink.c lines 70–110): divide each
accumulator sample by `sval * sval` (C `int32_t` division), clamp to
[0,255] and emit the output scanline of `out_samples` bytes. -/
def jpegshrink_avgblit (acc : Nat → Nat) (out_samples sval : Nat) : List Nat :=
  (List.range out_samples).map
    (fun i => (clampSample (((acc i : Int)) / ((sval : Int) * (sval : Int)))).toNat)

/-- Function `jpegshrink_padscan` (jpegshrink.c lines 232–279): duplicate the last
real pixel of the scanline into each of the `pad_count` trailing pixel
slots.  For `i = 1 .. pad_count` and channel `c`, the C code stores
`plast[i*ch + c] = plast[c]` where `plast` is at offset `(w-1)*ch`. -/
def jpegshrink_padscan (buf : Nat → Nat) (in_width pad_count ch : Nat) : Nat → Nat :=
  (List.range pad_count).foldl
    (fun b i =>
      (List.range ch).foldl
        (fun b2 c => updAt b2 ((in_width - 1 + (i+1)) * ch + c) (b2 ((in_width - 1) * ch + c)))
        b)
    buf

/-- Model of `SPH_JPEG_READER` (sophistry_jpeg.c).  `rows` lists the
outcome of each sequential scanline decode: `some scan` on success,
`none` when libjpeg fails mid-stream. -/
structure Reader where
  width : Nat
  height : Nat
  chcount : Nat
  status : Nat
  rows : List (Option (List Nat))
  readcount : Nat

/-- Function `sph_jpeg_reader_get` (sophistry_jpeg.c lines 474–532): increments
`readcount`; if the sticky status is already an error, or the decode of
the current row fails (setting status `SPH_JPEG_ERR_READ`), the scanline
buffer is blanked (`memset` of `width*chcount` zero bytes) and 0 is
returned; otherwise the decoded scanline is delivered. -/
def reader_get (r : Reader) : Reader × List Nat × Bool :=
  let blank := List.replicate (r.width * r.chcount) 0
  if r.status ≠ SPH_JPEG_ERR_OK then
    ({ r with readcount := r.readcount + 1 }, blank, false)
  else
    match r.rows.getD r.readcount none with
    | some scan => ({ r with readcount := r.readcount + 1 }, scan, true)
    | none =>
      ({ r with readcount := r.readcount + 1, status := SPH_JPEG_ERR_READ }, blank, false)

/-- The effect on the scanline buffer of a decoder read delivering
`data`: the first `data.length` bytes are overwritten, the rest of the
buffer keeps its previous contents. -/
def writeScan (buf : Nat → Nat) (data : List Nat) : Nat → Nat :=
  fun j => if j < data.length then data.getD j 0 else buf j

/-- Structure `JPEGSHRINK_BOUNDS` (jpegshrink.h): each field is a constraint, with
a negative value meaning "not constrained". -/
structure JPEGSHRINK_BOUNDS where
  max_long : Int
  max_short : Int
  max_width : Int
  max_height : Int
  max_pixels : Int

/-- The constraint check of `jpegshrink` (jpegshrink.c lines 366–412):
`long_dim`/`short_dim` split with width winning ties, 64-bit pixel
count, and each field tested only when non-negative. -/
def boundsViolated (b : JPEGSHRINK_BOUNDS) (ow oh : Nat) : Bool :=
  let long_dim : Int := if (oh : Int) > (ow : Int) then oh else ow
  let short_dim : Int := if (oh : Int) > (ow : Int) then ow else oh
  let pix_count : Int := (ow : Int) * (oh : Int)
  decide (0 ≤ b.max_long ∧ long_dim > b.max_long) ||
  decide (0 ≤ b.max_short ∧ short_dim > b.max_short) ||
  decide (0 ≤ b.max_width ∧ (ow : Int) > b.max_width) ||
  decide (0 ≤ b.max_height ∧ (oh : Int) > b.max_height) ||
  decide (0 ≤ b.max_pixels ∧ pix_count > b.max_pixels)

/-- The output-dimension computation of `jpegshrink` (jpegshrink.c lines
345–364): identity when `sval <= 1`, otherwise divide and bump each
dimension whose remainder is nonzero. -/
def outDims (w h sval : Nat) : Nat × Nat :=
  if sval ≤ 1 then (w, h)
  else (w / sval + (if w % sval ≠ 0 then 1 else 0),
        h / sval + (if h % sval ≠ 0 then 1 else 0))

/-- Static context of the general (scaling) path of `jpegshrink`;
`w`, `h`, `ch` come from the reader, `ow` is the computed output width. -/
structure GenCtx where
  w : Nat
  h : Nat
  ch : Nat
  sval : Nat
  ow : Nat

/-- Value `pad_count = (out_width * sval) - in_width` (jpegshrink.c line 476). -/
def GenCtx.padCount (c : GenCtx) : Nat := c.ow * c.sval - c.w

/-- Value `out_samples = out_width * chcount` (jpegshrink.c line 480). -/
def GenCtx.outSamples (c : GenCtx) : Nat := c.ow * c.ch

/-- One iteration of the general-path loop of `jpegshrink` (jpegshrink.c
lines 483–525) at virtual row `y`: read and pad a real scanline when
`y < in_height` (otherwise the buffer is reused unchanged), zero the
accumulator at `y % sval == 0`, mix the buffer in, and emit an averaged
scanline at `y % sval >= sval - 1`.  Returns the updated reader, scanline
buffer, accumulator, the status flag, and the emitted scanlines. -/
def genStep (c : GenCtx) (y : Nat) (rdr : Reader) (buf acc : Nat → Nat) :
    Reader × (Nat → Nat) × (Nat → Nat) × Bool × List (List Nat) :=
  let step1 : Reader × (Nat → Nat) × Bool :=
    if y < c.h then
      match reader_get rdr with
      | (r1, data, okr) =>
        let b1 := writeScan buf data
        if okr then (r1, jpegshrink_padscan b1 c.w c.padCount c.ch, true)
        else (r1, b1, false)
    else (rdr, buf, true)
  match step1 with
  | (rdr1, buf1, ok) =>
    if ok then
      let acc1 := if y % c.sval = 0 then (fun i => if i < c.outSamples then 0 else acc i) else acc
      let acc2 := jpegshrink_mixscan buf1 acc1 c.ow c.sval c.ch
      if y % c.sval ≥ c.sval - 1 then
        (rdr1, buf1, acc2, true, [jpegshrink_avgblit acc2 c.outSamples c.sval])
      else
        (rdr1, buf1, acc2, true, [])
    else (rdr1, buf1, acc, false, [])

/-- The general-path loop of `jpegshrink`, iterating `genStep` over the
padded vertical space; the fuel is the remaining row count (initially
`pad_height`).  On a read failure the loop breaks immediately. -/
def genLoop (c : GenCtx) :
    Nat → Nat → Reader → (Nat → Nat) → (Nat → Nat) → List (List Nat) →
    Reader × List (List Nat) × Bool
  | 0, _, rdr, _, _, ws => (rdr, ws, true)
  | fuel+1, y, rdr, buf, acc, ws =>
    match genStep c y rdr buf acc with
    | (rdr1, buf1, acc1, ok, emit) =>
      if ok then genLoop c fuel (y+1) rdr1 buf1 acc1 (ws ++ emit)
      else (rdr1, ws, false)

/-- The fast copy path of `jpegshrink` (jpegshrink.c lines 430–448):
read each of the `in_height` scanlines into the buffer and push it
unmodified (the encoder consumes `out_width * chcount = w * ch` bytes). -/
def fastLoop (w ch : Nat) :
    Nat → Reader → (Nat → Nat) → List (List Nat) →
    Reader × List (List Nat) × Bool
  | 0, rdr, _, ws => (rdr, ws, true)
  | fuel+1, rdr, buf, ws =>
    match reader_get rdr with
    | (r1, data, okr) =>
      let buf1 := writeScan buf data
      if okr then fastLoop w ch fuel r1 buf1 (ws ++ [(List.range (w * ch)).map buf1])
      else (r1, ws, false)

/-- Function `jpegshrink` (jpegshrink.c lines 291–560).  Returns the status value
(`Int`, since constraint violation is reported as -1), the scanlines
pushed to the encoder, and the final reader state.  Structure mirrors
the source: decoder-open check, output-dimension computation, optional
bounds check (setting retval -1 and skipping the encoder), fast path for
`sval <= 1`, general path otherwise, and the final retval fixup from the
reader status. -/
def jpegshrink (rdr : Reader) (sval : Nat) (bounds : Option JPEGSHRINK_BOUNDS) :
    Int × List (List Nat) × Reader :=
  if rdr.status ≠ SPH_JPEG_ERR_OK then ((rdr.status : Int), [], rdr)
  else
    let w := rdr.width
    let h := rdr.height
    let ch := rdr.chcount
    let ow := (outDims w h sval).1
    let oh := (outDims w h sval).2
    let rejected := match bounds with
      | none => false
      | some b => boundsViolated b ow oh
    if rejected then (-1, [], rdr)
    else if sval ≤ 1 then
      match fastLoop w ch h rdr (fun _ => 0) [] with
      | (rdr2, ws, ok) =>
        if ok then (0, ws, rdr2) else ((rdr2.status : Int), ws, rdr2)
    else
      match genLoop { w := w, h := h, ch := ch, sval := sval, ow := ow }
          (oh * sval) 0 rdr (fun _ => 0) (fun _ => 0) [] with
      | (rdr2, ws, ok) =>
        if ok then (0, ws, rdr2) else ((rdr2.status : Int), ws, rdr2)

/-! Specification-side definitions (the edge-padded image and the
box-filter average, written from the spec's formulas, to be compared
with the embedded code). -/

/-- Sample `t` of row `y` of the raw input image. -/
def sampleAt (rows : List (List Nat)) (y t : Nat) : Nat :=
  (rows.getD y []).getD t 0

/-- Channel `cc` of pixel `x` of row `y` of the edge-padded input:
coordinates clamp to the last real pixel/scanline. -/
def padSample (rows : List (List Nat)) (w h ch y x cc : Nat) : Nat :=
  sampleAt rows (min y (h - 1)) ((min x (w - 1)) * ch + cc)

/-- Horizontal window sum: channel `cc` of padded pixels
`i*sval .. i*sval + sval - 1` of padded row `y`. -/
def rowWin (rows : List (List Nat)) (w h ch sval y i cc : Nat) : Nat :=
  ∑ dx ∈ Finset.range sval, padSample rows w h ch y (i * sval + dx) cc

/-- Full `sval × sval` window sum for output pixel `(j, i)`, channel `cc`. -/
def winSum (rows : List (List Nat)) (w h ch sval j i cc : Nat) : Nat :=
  ∑ dy ∈ Finset.range sval, rowWin rows w h ch sval (j * sval + dy) i cc

/-- The specified output scanline `j`: each sample is the window sum
divided by `sval²` (truncating) and clamped to [0,255]. -/
def specRow (rows : List (List Nat)) (w h ch sval ow j : Nat) : List Nat :=
  (List.range (ow * ch)).map
    (fun t => min (winSum rows w h ch sval j (t / ch) (t % ch) / (sval * sval)) 255)

/-- The contents of the padded scanline buffer after row `y` has been
read and horizontally padded: padded samples below `padW * ch`, the
untouched zeros of the `calloc` above. -/
def padBuf (rows : List (List Nat)) (w h ch padW y : Nat) : Nat → Nat :=
  fun t => if t < padW * ch then padSample rows w h ch y (t / ch) (t % ch) else 0

/-- The reader state after `y` loop iterations of a fully-successful run:
`min y h` scanlines consumed, no error. -/
def readerAt (rows : List (List Nat)) (w h ch y : Nat) : Reader :=
  { width := w, height := h, chcount := ch, status := SPH_JPEG_ERR_OK,
    rows := rows.map Option.some, readcount := min y h }

end JpegShrink

namespace JpegShrink

theorem updAt_apply (f : Nat → Nat) (i v j : Nat) :
    updAt f i v j = if j = i then v else f j := rfl

theorem getD_map_some (l : List (List Nat)) (i : Nat) (h : i < l.length) :
    (l.map Option.some).getD i none = some (l.getD i []) := by
  simp [List.getD_eq_getElem?_getD, List.getElem?_eq_getElem h]

theorem map_getD_range {α : Type} (l : List α) (d : α) :
    (List.range l.length).map (fun i => l.getD i d) = l := by
  apply List.ext_getElem
  · simp
  · intro i h1 h2
    simp [List.getD_eq_getElem?_getD, List.getElem?_eq_getElem h2]

theorem getD_le_of_forall {l : List Nat} {B : Nat} (i : Nat) (h : ∀ v ∈ l, v ≤ B) :
    l.getD i 0 ≤ B := by
  rw [List.getD_eq_getElem?_getD]
  cases hx : l[i]? with
  | none => simp
  | some v =>
    simpa using h v (List.getElem?_mem hx)

theorem div_mod_succ_eq (s x : Nat) (hs : 1 ≤ s) (h : x % s = s - 1) :
    (x+1) / s = x / s + 1 ∧ (x+1) % s = 0 := by
  have hx := Nat.div_add_mod x s
  have hx1 : x + 1 = s * (x / s + 1) := by
    rw [Nat.mul_succ]
    conv_lhs => rw [← hx]
    rw [h]
    omega
  constructor
  · rw [hx1, Nat.mul_div_cancel_left _ (by omega : 0 < s)]
  · rw [hx1, Nat.mul_mod_right]

theorem div_mod_succ_lt (s x : Nat) (h : x % s + 1 < s) :
    (x+1) / s = x / s ∧ (x+1) % s = x % s + 1 := by
  have hx := Nat.div_add_mod x s
  have hs : 0 < s := by omega
  have hx1 : x + 1 = s * (x / s) + (x % s + 1) := by
    conv_rhs => rw [← Nat.add_assoc, hx]
  constructor
  · rw [hx1, Nat.mul_add_div hs, Nat.div_eq_of_lt h, Nat.add_zero]
  · rw [hx1, Nat.mul_add_mod, Nat.mod_eq_of_lt h]

theorem window_div (j k s : Nat) (hk : k < s) : (j * s + k) / s = j := by
  rw [Nat.mul_comm, Nat.mul_add_div (by omega : 0 < s), Nat.div_eq_of_lt hk, Nat.add_zero]

theorem idx_window_iff (j m c ch : Nat) (hc : c < ch) :
    (m * ch ≤ j * ch + c ∧ j * ch + c < m * ch + ch) ↔ j = m := by
  constructor
  · rintro ⟨h1, h2⟩
    rcases Nat.lt_trichotomy j m with hlt | heq | hgt
    · exfalso
      have hle : j * ch + ch ≤ m * ch := by
        have h3 : j + 1 ≤ m := hlt
        calc j * ch + ch = (j+1) * ch := by ring
        _ ≤ m * ch := Nat.mul_le_mul_right _ h3
      omega
    · exact heq
    · exfalso
      have hle : m * ch + ch ≤ j * ch := by
        have h3 : m + 1 ≤ j := hgt
        calc m * ch + ch = (m+1) * ch := by ring
        _ ≤ j * ch := Nat.mul_le_mul_right _ h3
      omega
  · rintro rfl
    omega

theorem addPixelG_apply (M : Nat) (inScan acc : Nat → Nat) (inOff accOff ch t : Nat) :
    addPixelG M inScan acc inOff accOff ch t =
      if accOff ≤ t ∧ t < accOff + ch
      then (acc t + inScan (inOff + (t - accOff))) % M
      else acc t := by
  induction ch with
  | zero =>
    simp only [addPixelG, List.range_zero, List.foldl_nil]
    rw [if_neg (by omega)]
  | succ n ih =>
    have hstep : addPixelG M inScan acc inOff accOff (n+1) =
        accAddG M (addPixelG M inScan acc inOff accOff n) (accOff + n) (inScan (inOff + n)) := by
      simp [addPixelG, List.range_succ]
    rw [hstep, accAddG, updAt_apply]
    by_cases ht : t = accOff + n
    · subst ht
      rw [if_pos rfl, ih, if_neg (by omega),
        if_pos (by omega : accOff ≤ accOff + n ∧ accOff + n < accOff + (n+1))]
      have he : accOff + n - accOff = n := by omega
      rw [he]
    · rw [if_neg ht, ih]
      by_cases hin : accOff ≤ t ∧ t < accOff + n
      · rw [if_pos hin, if_pos (by omega)]
      · rw [if_neg hin, if_neg (by omega)]


theorem sum_range_split (f : Nat → Nat) (a b : Nat) :
    ∑ i ∈ Finset.range (a + b), f i =
      (∑ i ∈ Finset.range a, f i) + ∑ i ∈ Finset.range b, f (a + i) := by
  induction b with
  | zero => simp
  | succ k ih =>
    rw [show a + (k+1) = (a+k) + 1 by omega, Finset.sum_range_succ, ih,
      Finset.sum_range_succ, Nat.add_assoc]

theorem flatMixG_succ (M : Nat) (inScan : Nat → Nat) (ch sval n x : Nat) (acc : Nat → Nat) :
    flatMixG M inScan ch sval (n+1) x acc =
      flatMixG M inScan ch sval n (x+1)
        (addPixelG M inScan acc (x * ch) ((x / sval) * ch) ch) := rfl

theorem flatMixG_add (M : Nat) (inScan : Nat → Nat) (ch sval : Nat) :
    ∀ n m x acc, flatMixG M inScan ch sval (n + m) x acc =
      flatMixG M inScan ch sval m (x + n) (flatMixG M inScan ch sval n x acc) := by
  intro n
  induction n with
  | zero =>
    intro m x acc
    simp [flatMixG]
  | succ k ih =>
    intro m x acc
    have h1 : k + 1 + m = (k + m) + 1 := by omega
    rw [h1, flatMixG_succ, ih, flatMixG_succ]
    have h2 : x + 1 + k = x + (k + 1) := by omega
    rw [h2]

theorem flatMixG_apply (M : Nat) (inScan : Nat → Nat) (ch sval : Nat) :
    ∀ n x acc t,
      flatMixG M inScan ch sval n x acc t =
        if ∃ i, i < n ∧ inWinIdx sval ch (x + i) t
        then (acc t + ∑ i ∈ Finset.range n, contribAt inScan sval ch (x + i) t) % M
        else acc t := by
  intro n
  induction n with
  | zero =>
    intro x acc t
    rw [if_neg]
    · rfl
    · rintro ⟨i, hi, _⟩
      omega
  | succ k ih =>
    intro x acc t
    rw [flatMixG_succ, ih]
    have hacc1 : addPixelG M inScan acc (x*ch) ((x/sval)*ch) ch t =
        if inWinIdx sval ch x t then (acc t + contribAt inScan sval ch x t) % M
        else acc t := by
      rw [addPixelG_apply]
      unfold contribAt inWinIdx
      split_ifs with h
      · rfl
      · rfl
    have hsum : ∑ i ∈ Finset.range (k+1), contribAt inScan sval ch (x+i) t
        = contribAt inScan sval ch x t +
          ∑ i ∈ Finset.range k, contribAt inScan sval ch (x+1+i) t := by
      rw [Finset.sum_range_succ']
      have h1 : contribAt inScan sval ch (x+0) t = contribAt inScan sval ch x t := by
        rw [Nat.add_zero]
      rw [h1, Nat.add_comm]
      congr 1
      apply Finset.sum_congr rfl
      intro i _
      congr 1
      omega
    have hiff : (∃ i, i < k+1 ∧ inWinIdx sval ch (x+i) t) ↔
        (inWinIdx sval ch x t ∨ ∃ i, i < k ∧ inWinIdx sval ch (x+1+i) t) := by
      constructor
      · rintro ⟨i, hi, hw⟩
        cases i with
        | zero =>
          left
          simpa using hw
        | succ j =>
          right
          refine ⟨j, by omega, ?_⟩
          have he : x + (j+1) = x + 1 + j := by omega
          rwa [he] at hw
      · rintro (hw | ⟨i, hi, hw⟩)
        · exact ⟨0, by omega, by simpa using hw⟩
        · refine ⟨i+1, by omega, ?_⟩
          have he : x + (i+1) = x + 1 + i := by omega
          rwa [he]
    by_cases hrest : ∃ i, i < k ∧ inWinIdx sval ch (x+1+i) t
    · rw [if_pos hrest, hacc1]
      by_cases h0 : inWinIdx sval ch x t
      · rw [if_pos h0, if_pos (hiff.mpr (Or.inl h0)), hsum, Nat.mod_add_mod,
          Nat.add_assoc]
      · have hc0 : contribAt inScan sval ch x t = 0 := by
          unfold contribAt
          rw [if_neg h0]
        rw [if_neg h0, if_pos (hiff.mpr (Or.inr hrest)), hsum, hc0, Nat.zero_add]
    · rw [if_neg hrest, hacc1]
      by_cases h0 : inWinIdx sval ch x t
      · rw [if_pos h0, if_pos (hiff.mpr (Or.inl h0)), hsum]
        have hz : ∑ i ∈ Finset.range k, contribAt inScan sval ch (x+1+i) t = 0 := by
          apply Finset.sum_eq_zero
          intro i hi
          unfold contribAt
          rw [if_neg]
          intro hw
          exact hrest ⟨i, Finset.mem_range.mp hi, hw⟩
        rw [hz, Nat.add_zero]
      · rw [if_neg h0, if_neg]
        intro hall
        rcases hiff.mp hall with hw | hw
        · exact h0 hw
        · exact hrest hw

theorem mixscanAuxG_succ (M : Nat) (inScan : Nat → Nat) (ch sval padWidth k x inOff accOff : Nat)
    (acc : Nat → Nat) :
    mixscanAuxG M inScan ch sval padWidth (k+1) x inOff accOff acc =
      (if x < padWidth - 1 then
        mixscanAuxG M inScan ch sval padWidth k (x+1) (inOff + ch)
          (if sval < 2 then accOff + ch
           else if x % sval ≥ sval - 1 then accOff + ch
           else accOff)
          (addPixelG M inScan acc inOff accOff ch)
      else addPixelG M inScan acc inOff accOff ch) := rfl

theorem mixscanAuxG_eq_flatMixG (M : Nat) (inScan : Nat → Nat) (ch sval padWidth : Nat)
    (hs : 1 ≤ sval) :
    ∀ fuel x acc, x + fuel = padWidth →
      mixscanAuxG M inScan ch sval padWidth fuel x (x * ch) ((x / sval) * ch) acc =
        flatMixG M inScan ch sval fuel x acc := by
  intro fuel
  induction fuel with
  | zero =>
    intro x acc h
    rfl
  | succ k ih =>
    intro x acc h
    rw [mixscanAuxG_succ, flatMixG_succ]
    by_cases hx : x < padWidth - 1
    · rw [if_pos hx]
      have hoff : (if sval < 2 then (x/sval)*ch + ch
          else if x % sval ≥ sval - 1 then (x/sval)*ch + ch
          else (x/sval)*ch) = ((x+1)/sval)*ch := by
        by_cases h1 : sval < 2
        · have hs1 : sval = 1 := by omega
          subst hs1
          rw [if_pos h1]
          simp [Nat.div_one, Nat.succ_mul]
        · rw [if_neg h1]
          by_cases h2 : x % sval ≥ sval - 1
          · have hmod : x % sval = sval - 1 := by
              have := Nat.mod_lt x (show 0 < sval by omega)
              omega
            rw [if_pos h2, (div_mod_succ_eq sval x hs hmod).1, Nat.succ_mul]
          · have hlt : x % sval + 1 < sval := by
              have := Nat.mod_lt x (show 0 < sval by omega)
              omega
            rw [if_neg h2, (div_mod_succ_lt sval x hlt).1]
      have hin : x * ch + ch = (x+1) * ch := by ring
      rw [hoff, hin]
      exact ih (x+1) _ (by omega)
    · rw [if_neg hx]
      have hk : k = 0 := by omega
      subst hk
      rfl

theorem winfold_eq_flatMixG (M : Nat) (inScan : Nat → Nat) (ch sval j : Nat) (acc : Nat → Nat) :
    (List.range sval).foldl
        (fun a2 k => addPixelG M inScan a2 ((j * sval + k) * ch) (j * ch) ch) acc
      = flatMixG M inScan ch sval sval (j * sval) acc := by
  suffices h : ∀ m, m ≤ sval →
      (List.range m).foldl
        (fun a2 k => addPixelG M inScan a2 ((j * sval + k) * ch) (j * ch) ch) acc
      = flatMixG M inScan ch sval m (j * sval) acc from h sval (Nat.le_refl sval)
  intro m
  induction m with
  | zero =>
    intro _
    rfl
  | succ k ih =>
    intro hk1
    rw [List.range_succ, List.foldl_append, List.foldl_cons, List.foldl_nil,
      ih (by omega)]
    rw [show flatMixG M inScan ch sval (k+1) (j*sval) acc =
        flatMixG M inScan ch sval 1 (j*sval + k) (flatMixG M inScan ch sval k (j*sval) acc)
      from flatMixG_add M inScan ch sval k 1 (j*sval) acc]
    rw [flatMixG_succ]
    have hdiv : (j * sval + k) / sval = j := window_div j k sval (by omega)
    rw [hdiv]
    rfl

theorem mixscanWindowed_eq_flatMixG (M : Nat) (inScan : Nat → Nat) (acc : Nat → Nat)
    (ow sval ch : Nat) :
    mixscanWindowed M inScan acc ow sval ch =
      flatMixG M inScan ch sval (ow * sval) 0 acc := by
  show (List.range ow).foldl _ acc = _
  suffices h : ∀ m, (List.range m).foldl
      (fun a j =>
        (List.range sval).foldl
          (fun a2 k => addPixelG M inScan a2 ((j * sval + k) * ch) (j * ch) ch) a)
      acc = flatMixG M inScan ch sval (m * sval) 0 acc from h ow
  intro m
  induction m with
  | zero =>
    rw [Nat.zero_mul]
    rfl
  | succ k ih =>
    rw [List.range_succ, List.foldl_append, List.foldl_cons, List.foldl_nil, ih,
      winfold_eq_flatMixG]
    rw [show (k+1) * sval = k * sval + sval by ring,
      flatMixG_add M inScan ch sval (k * sval) sval 0 acc, Nat.zero_add]

theorem mixscanG_eq_flat (M : Nat) (inScan : Nat → Nat) (acc : Nat → Nat)
    (ow sval ch : Nat) (hs : 1 ≤ sval) :
    mixscanG M inScan acc ow sval ch = flatMixG M inScan ch sval (ow * sval) 0 acc := by
  have h := mixscanAuxG_eq_flatMixG M inScan ch sval (ow * sval) hs (ow * sval) 0 acc
    (by omega)
  simpa [mixscanG] using h


theorem sum_range_le (f : Nat → Nat) (n B : Nat) (h : ∀ i ∈ Finset.range n, f i ≤ B) :
    ∑ i ∈ Finset.range n, f i ≤ n * B := by
  calc ∑ i ∈ Finset.range n, f i ≤ ∑ _i ∈ Finset.range n, B := Finset.sum_le_sum h
  _ = n * B := by rw [Finset.sum_const, Finset.card_range, smul_eq_mul]

theorem contribAt_window (inScan : Nat → Nat) (sval ch m dx j c : Nat)
    (hdx : dx < sval) (hc : c < ch) :
    contribAt inScan sval ch (m * sval + dx) (j * ch + c) =
      if j = m then inScan ((m * sval + dx) * ch + c) else 0 := by
  unfold contribAt inWinIdx
  simp only [window_div m dx sval hdx]
  by_cases hjm : j = m
  · subst hjm
    rw [if_pos (by omega), if_pos rfl]
    congr 1
    omega
  · rw [if_neg (fun hcon => hjm ((idx_window_iff j m c ch hc).1 hcon)), if_neg hjm]

theorem contribSum_window (inScan : Nat → Nat) (sval ch ow j c : Nat)
    (hc : c < ch) (hj : j < ow) :
    ∑ i ∈ Finset.range (ow * sval), contribAt inScan sval ch i (j * ch + c)
      = ∑ dx ∈ Finset.range sval, inScan ((j * sval + dx) * ch + c) := by
  suffices h : ∀ m, ∑ i ∈ Finset.range (m * sval), contribAt inScan sval ch i (j*ch+c)
      = if j < m then ∑ dx ∈ Finset.range sval, inScan ((j*sval+dx)*ch + c) else 0 by
    rw [h ow, if_pos hj]
  intro m
  induction m with
  | zero =>
    rw [Nat.zero_mul]
    simp
  | succ k ih =>
    rw [show (k+1) * sval = k*sval + sval by ring, sum_range_split, ih]
    have hsecond : ∑ i ∈ Finset.range sval, contribAt inScan sval ch (k*sval + i) (j*ch+c)
        = if j = k then ∑ dx ∈ Finset.range sval, inScan ((k*sval+dx)*ch + c) else 0 := by
      by_cases hjk : j = k
      · rw [if_pos hjk]
        apply Finset.sum_congr rfl
        intro dx hdx
        rw [contribAt_window inScan sval ch k dx j c (Finset.mem_range.mp hdx) hc,
          if_pos hjk]
      · rw [if_neg hjk]
        apply Finset.sum_eq_zero
        intro dx hdx
        rw [contribAt_window inScan sval ch k dx j c (Finset.mem_range.mp hdx) hc,
          if_neg hjk]
    rw [hsecond]
    clear hsecond ih
    by_cases hjk : j = k
    · subst hjk
      rw [if_neg (lt_irrefl j), if_pos rfl, Nat.zero_add, if_pos (Nat.lt_succ_self j)]
    · by_cases hjlt : j < k
      · rw [if_pos hjlt, if_neg hjk, Nat.add_zero, if_pos (by omega)]
      · rw [if_neg hjlt, if_neg hjk, Nat.add_zero, if_neg (by omega)]

theorem mixscanG_entry (M : Nat) (inScan : Nat → Nat) (acc : Nat → Nat)
    (ow sval ch j c : Nat) (hs : 1 ≤ sval) (hj : j < ow) (hc : c < ch) :
    mixscanG M inScan acc ow sval ch (j * ch + c) =
      (acc (j * ch + c) +
        ∑ dx ∈ Finset.range sval, inScan ((j * sval + dx) * ch + c)) % M := by
  rw [mixscanG_eq_flat M inScan acc ow sval ch hs, flatMixG_apply, if_pos]
  · have hrw : ∀ i ∈ Finset.range (ow*sval), contribAt inScan sval ch (0+i) (j*ch+c)
        = contribAt inScan sval ch i (j*ch+c) := by
      intro i _
      rw [Nat.zero_add]
    rw [Finset.sum_congr rfl hrw, contribSum_window inScan sval ch ow j c hc hj]
  · refine ⟨j * sval, ?_, ?_⟩
    · have h1 : (j+1) * sval ≤ ow * sval := Nat.mul_le_mul_right _ (by omega)
      have h2 : (j+1) * sval = j * sval + sval := by ring
      omega
    · unfold inWinIdx
      rw [Nat.zero_add, Nat.mul_div_cancel _ (by omega : 0 < sval)]
      omega

theorem mixscanG_untouched (M : Nat) (inScan : Nat → Nat) (acc : Nat → Nat)
    (ow sval ch t : Nat) (hs : 1 ≤ sval) (ht : ow * ch ≤ t) :
    mixscanG M inScan acc ow sval ch t = acc t := by
  rw [mixscanG_eq_flat M inScan acc ow sval ch hs, flatMixG_apply, if_neg]
  rintro ⟨i, hi, hw⟩
  unfold inWinIdx at hw
  rw [Nat.zero_add] at hw
  have hdiv : i / sval < ow := by
    rw [Nat.div_lt_iff_lt_mul (by omega : 0 < sval)]
    exact hi
  have hle : (i/sval)*ch + ch ≤ ow*ch := by
    have h1 : i/sval + 1 ≤ ow := hdiv
    calc (i/sval)*ch + ch = (i/sval + 1)*ch := by ring
    _ ≤ ow*ch := Nat.mul_le_mul_right _ h1
  omega

theorem mixscan_entry_nomod (inScan : Nat → Nat) (acc : Nat → Nat)
    (ow sval ch j c : Nat) (hs : 1 ≤ sval) (hj : j < ow) (hc : c < ch)
    (hb : acc (j*ch+c) + ∑ dx ∈ Finset.range sval, inScan ((j*sval+dx)*ch + c) < 65536) :
    jpegshrink_mixscan inScan acc ow sval ch (j*ch+c) =
      acc (j*ch+c) + ∑ dx ∈ Finset.range sval, inScan ((j*sval+dx)*ch+c) := by
  rw [jpegshrink_mixscan, mixscanG_entry 65536 inScan acc ow sval ch j c hs hj hc,
    Nat.mod_eq_of_lt hb]

theorem dupPixel_apply (b : Nat → Nat) (base src : Nat) :
    ∀ ch t, src + ch ≤ base →
      ((List.range ch).foldl (fun b2 c => updAt b2 (base + c) (b2 (src + c))) b) t =
      if base ≤ t ∧ t < base + ch then b (src + (t - base)) else b t := by
  intro ch
  induction ch with
  | zero =>
    intro t h
    rw [if_neg (by omega)]
    rfl
  | succ n ih =>
    intro t h
    have hstep : (List.range (n+1)).foldl
          (fun b2 c => updAt b2 (base + c) (b2 (src + c))) b =
        updAt ((List.range n).foldl (fun b2 c => updAt b2 (base + c) (b2 (src + c))) b)
          (base + n)
          (((List.range n).foldl (fun b2 c => updAt b2 (base + c) (b2 (src + c))) b)
            (src + n)) := by
      simp [List.range_succ]
    rw [hstep, updAt_apply]
    clear hstep
    by_cases ht : t = base + n
    · rw [if_pos ht, ih (src + n) (by omega), if_neg (by omega)]
      subst ht
      rw [if_pos (by omega)]
      congr 1
      omega
    · rw [if_neg ht, ih t (by omega)]
      by_cases hin : base ≤ t ∧ t < base + n
      · rw [if_pos hin, if_pos (by omega)]
      · rw [if_neg hin, if_neg (by omega)]

theorem padscan_apply (buf : Nat → Nat) (w ch : Nat) (hw : 1 ≤ w) (hch : 1 ≤ ch) :
    ∀ padCount t,
      jpegshrink_padscan buf w padCount ch t =
        if w * ch ≤ t ∧ t < (w + padCount) * ch then buf ((w - 1) * ch + t % ch)
        else buf t := by
  intro padCount
  induction padCount with
  | zero =>
    intro t
    have e0 : (w + 0) * ch = w * ch := by ring
    rw [e0, if_neg (by omega)]
    rfl
  | succ k ih =>
    intro t
    have hstep : jpegshrink_padscan buf w (k+1) ch =
        (List.range ch).foldl
          (fun b2 c => updAt b2 ((w - 1 + (k+1)) * ch + c) (b2 ((w - 1) * ch + c)))
          (jpegshrink_padscan buf w k ch) := by
      simp [jpegshrink_padscan, List.range_succ]
    have hbase : w - 1 + (k+1) = w + k := by omega
    rw [hstep, hbase]
    clear hstep
    have e1 : (w + (k+1)) * ch = (w+k)*ch + ch := by ring
    have e2 : w*ch ≤ (w+k)*ch := Nat.mul_le_mul_right _ (by omega)
    have e3 : (w-1)*ch + ch = w*ch := by
      have hww : w - 1 + 1 = w := by omega
      calc (w-1)*ch + ch = (w-1+1)*ch := by ring
      _ = w*ch := by rw [hww]
    rw [dupPixel_apply (jpegshrink_padscan buf w k ch) ((w+k)*ch) ((w-1)*ch) ch t
      (by omega)]
    by_cases hin : (w+k)*ch ≤ t ∧ t < (w+k)*ch + ch
    · rw [if_pos hin, ih ((w-1)*ch + (t - (w+k)*ch)), if_neg (by omega),
        if_pos (by omega)]
      have hc2 : t - (w+k)*ch < ch := by omega
      have hcm : ch * (w+k) = (w+k) * ch := Nat.mul_comm _ _
      have ht2 : t = ch * (w+k) + (t - (w+k)*ch) := by omega
      have hmod : t % ch = t - (w+k)*ch := by
        conv_lhs => rw [ht2]
        rw [Nat.mul_add_mod]
        exact Nat.mod_eq_of_lt hc2
      rw [hmod]
    · rw [if_neg hin, ih t]
      by_cases hold : w*ch ≤ t ∧ t < (w+k)*ch
      · rw [if_pos hold, if_pos (by omega)]
      · rw [if_neg hold, if_neg (by omega)]


theorem mulAdd_div_mod (x ch cc : Nat) (hcc : cc < ch) :
    (x * ch + cc) / ch = x ∧ (x * ch + cc) % ch = cc := by
  have h0 : 0 < ch := by omega
  constructor
  · rw [Nat.mul_comm, Nat.mul_add_div h0, Nat.div_eq_of_lt hcc, Nat.add_zero]
  · rw [Nat.mul_comm, Nat.mul_add_mod, Nat.mod_eq_of_lt hcc]

theorem sampleAt_le (rows : List (List Nat)) (y t : Nat)
    (hval : ∀ r ∈ rows, ∀ v ∈ r, v ≤ 255) : sampleAt rows y t ≤ 255 := by
  unfold sampleAt
  rcases lt_or_ge y rows.length with hy | hy
  · apply getD_le_of_forall
    intro v hv
    refine hval (rows.getD y []) ?_ v hv
    have hg : rows.getD y [] = rows[y] := by
      simp [List.getD_eq_getElem?_getD, List.getElem?_eq_getElem hy]
    rw [hg]
    exact List.getElem_mem hy
  · have hg : rows.getD y [] = [] := by
      simp [List.getD_eq_getElem?_getD, List.getElem?_eq_none hy]
    rw [hg]
    simp

theorem padSample_le (rows : List (List Nat)) (w h ch y x cc : Nat)
    (hval : ∀ r ∈ rows, ∀ v ∈ r, v ≤ 255) :
    padSample rows w h ch y x cc ≤ 255 := by
  unfold padSample
  exact sampleAt_le rows _ _ hval

theorem padBuf_read (rows : List (List Nat)) (w h ch padW y x cc : Nat)
    (hcc : cc < ch) (hx : x < padW) :
    padBuf rows w h ch padW y (x * ch + cc) = padSample rows w h ch y x cc := by
  unfold padBuf
  have hlt : x * ch + cc < padW * ch := by
    have h1 : (x+1) * ch ≤ padW * ch := Nat.mul_le_mul_right _ (by omega)
    have h2 : (x+1) * ch = x * ch + ch := by ring
    omega
  rw [if_pos hlt, (mulAdd_div_mod x ch cc hcc).1, (mulAdd_div_mod x ch cc hcc).2]

theorem padBuf_le (rows : List (List Nat)) (w h ch padW y t : Nat)
    (hval : ∀ r ∈ rows, ∀ v ∈ r, v ≤ 255) :
    padBuf rows w h ch padW y t ≤ 255 := by
  unfold padBuf
  split_ifs with hlt
  · exact padSample_le rows w h ch y _ _ hval
  · omega

theorem padBuf_stable (rows : List (List Nat)) (w h ch padW y1 y2 : Nat)
    (h1 : h - 1 ≤ y1) (h2 : h - 1 ≤ y2) :
    padBuf rows w h ch padW y1 = padBuf rows w h ch padW y2 := by
  funext t
  unfold padBuf padSample
  rw [Nat.min_eq_right h1, Nat.min_eq_right h2]

theorem read_pad_eq_padBuf (rows : List (List Nat)) (w h ch padW padCount y : Nat)
    (buf : Nat → Nat)
    (hw : 1 ≤ w) (hch : 1 ≤ ch) (hy : y < h)
    (hlen : (rows.getD y []).length = w * ch)
    (hpad : w + padCount = padW)
    (hbuf : ∀ t, padW * ch ≤ t → buf t = 0) :
    jpegshrink_padscan (writeScan buf (rows.getD y [])) w padCount ch =
      padBuf rows w h ch padW y := by
  have hwp : w * ch ≤ padW * ch := Nat.mul_le_mul_right _ (by omega)
  have e3 : (w-1) * ch + ch = w * ch := by
    have hww : w - 1 + 1 = w := by omega
    calc (w-1)*ch + ch = (w-1+1)*ch := by ring
    _ = w*ch := by rw [hww]
  funext t
  rw [padscan_apply _ w ch hw hch padCount t]
  unfold writeScan padBuf
  rw [hlen, hpad]
  by_cases h1 : t < w * ch
  · rw [if_neg (show ¬(w*ch ≤ t ∧ t < padW*ch) by omega), if_pos h1,
      if_pos (show t < padW*ch by omega)]
    unfold padSample sampleAt
    have hxy : min y (h-1) = y := by omega
    have hx : t / ch < w := by
      rw [Nat.div_lt_iff_lt_mul (show 0 < ch by omega)]
      exact h1
    have hxx : min (t/ch) (w-1) = t/ch := by omega
    rw [hxy, hxx]
    congr 1
    have hdm := Nat.div_add_mod t ch
    have hcm : ch * (t/ch) = (t/ch) * ch := Nat.mul_comm _ _
    omega
  · by_cases h2 : t < padW * ch
    · rw [if_pos (show w*ch ≤ t ∧ t < padW*ch by omega),
        if_pos (show (w-1)*ch + t % ch < w*ch by
          have hm : t % ch < ch := Nat.mod_lt _ (by omega)
          omega),
        if_pos h2]
      unfold padSample sampleAt
      have hxy : min y (h-1) = y := by omega
      have hx : w ≤ t / ch := by
        rw [Nat.le_div_iff_mul_le (show 0 < ch by omega)]
        omega
      have hxx : min (t/ch) (w-1) = w - 1 := by omega
      rw [hxy, hxx]
    · rw [if_neg (show ¬(w*ch ≤ t ∧ t < padW*ch) by omega),
        if_neg (show ¬(t < w*ch) by omega), hbuf t (by omega),
        if_neg (show ¬(t < padW*ch) by omega)]

theorem avgblit_apply (acc : Nat → Nat) (out_samples sval : Nat)
    (hs : 1 ≤ sval) (hb : ∀ i, i < out_samples → acc i ≤ sval * sval * 255) :
    jpegshrink_avgblit acc out_samples sval =
      (List.range out_samples).map (fun i => acc i / (sval * sval)) := by
  unfold jpegshrink_avgblit
  apply List.map_congr_left
  intro i hi
  have hi2 : i < out_samples := List.mem_range.mp hi
  have hA : 1 ≤ sval * sval := Nat.mul_le_mul hs hs
  have hq255 : acc i / (sval * sval) ≤ 255 := by
    have hq : acc i / (sval * sval) < 256 := by
      rw [Nat.div_lt_iff_lt_mul (by omega)]
      have := hb i hi2
      omega
    omega
  have h1 : ((sval : Int)) * (sval : Int) = ((sval * sval : Nat) : Int) := by
    push_cast
    ring
  have hval : ((acc i : Int)) / ((sval : Int) * (sval : Int)) =
      ((acc i / (sval * sval) : Nat) : Int) := by
    rw [h1, ← Int.natCast_div]
  rw [hval]
  unfold clampSample
  rw [if_neg (not_lt.mpr (Int.natCast_nonneg _)),
    if_neg (not_lt.mpr (by exact_mod_cast hq255))]
  exact Int.toNat_natCast _

theorem reader_get_ok (r : Reader) (scan : List Nat)
    (h0 : r.status = SPH_JPEG_ERR_OK) (hrow : r.rows.getD r.readcount none = some scan) :
    reader_get r = ({ r with readcount := r.readcount + 1 }, scan, true) := by
  unfold reader_get
  rw [if_neg (by simp [h0]), hrow]


theorem rowWin_le (rows : List (List Nat)) (w h ch sval y j cc : Nat)
    (hval : ∀ r ∈ rows, ∀ v ∈ r, v ≤ 255) :
    rowWin rows w h ch sval y j cc ≤ sval * 255 := by
  unfold rowWin
  exact sum_range_le _ _ _ (fun dx _ => padSample_le rows w h ch y _ cc hval)

theorem winSum_le (rows : List (List Nat)) (w h ch sval j i cc : Nat)
    (hval : ∀ r ∈ rows, ∀ v ∈ r, v ≤ 255) :
    winSum rows w h ch sval j i cc ≤ sval * sval * 255 := by
  unfold winSum
  calc ∑ dy ∈ Finset.range sval, rowWin rows w h ch sval (j * sval + dy) i cc
      ≤ sval * (sval * 255) :=
        sum_range_le _ _ _ (fun dy _ => rowWin_le rows w h ch sval _ i cc hval)
  _ = sval * sval * 255 := by ring

theorem padBuf_winSum (rows : List (List Nat)) (w h ch sval ow y j cc : Nat)
    (hcc : cc < ch) (hj : j < ow) (hs : 1 ≤ sval) :
    ∑ dx ∈ Finset.range sval, padBuf rows w h ch (ow * sval) y ((j * sval + dx) * ch + cc)
      = rowWin rows w h ch sval y j cc := by
  unfold rowWin
  apply Finset.sum_congr rfl
  intro dx hdx
  apply padBuf_read
  · exact hcc
  · have hdx2 : dx < sval := Finset.mem_range.mp hdx
    have h1 : (j+1) * sval ≤ ow * sval := Nat.mul_le_mul_right _ (by omega)
    have h2 : (j+1) * sval = j * sval + sval := by ring
    omega

theorem idx_decomp (i ow ch : Nat) (hch : 1 ≤ ch) (hi : i < ow * ch) :
    i / ch < ow ∧ i % ch < ch ∧ (i / ch) * ch + i % ch = i := by
  have h1 : i / ch < ow := by
    rw [Nat.div_lt_iff_lt_mul (by omega)]
    exact hi
  have h2 : i % ch < ch := Nat.mod_lt _ (by omega)
  have h3 := Nat.div_add_mod i ch
  have hcm : ch * (i / ch) = (i / ch) * ch := Nat.mul_comm _ _
  exact ⟨h1, h2, by omega⟩

theorem range_map_shift (f : Nat → List Nat) (q m : Nat) :
    (List.range (m+1)).map (fun k => f (q + k)) =
      f q :: (List.range m).map (fun k => f (q + 1 + k)) := by
  rw [List.range_succ_eq_map, List.map_cons, Nat.add_zero, List.map_map]
  congr 1
  apply List.map_congr_left
  intro a _
  show f (q + (a+1)) = f (q + 1 + a)
  congr 1
  omega

theorem readerAt_get (rows : List (List Nat)) (w h ch y : Nat)
    (hy : y < h) (hrowslen : rows.length = h) :
    reader_get (readerAt rows w h ch y) =
      (readerAt rows w h ch (y+1), rows.getD y [], true) := by
  have h0 : (readerAt rows w h ch y).status = SPH_JPEG_ERR_OK := rfl
  have hmin : min y h = y := by omega
  have hrow : (readerAt rows w h ch y).rows.getD (readerAt rows w h ch y).readcount none
      = some (rows.getD y []) := by
    show (rows.map Option.some).getD (min y h) none = some (rows.getD y [])
    rw [hmin]
    exact getD_map_some rows y (by omega)
  rw [reader_get_ok _ _ h0 hrow]
  have hr : ({ readerAt rows w h ch y with
      readcount := (readerAt rows w h ch y).readcount + 1 } : Reader)
      = readerAt rows w h ch (y+1) := by
    unfold readerAt
    simp only []
    congr 1
    show min y h + 1 = min (y+1) h
    omega
  rw [hr]

theorem readerAt_stable (rows : List (List Nat)) (w h ch y : Nat) (hy : h ≤ y) :
    readerAt rows w h ch y = readerAt rows w h ch (y+1) := by
  unfold readerAt
  congr 1
  show min y h = min (y+1) h
  omega

theorem genLoop_succ (c : GenCtx) (fuel y : Nat) (rdr : Reader) (buf acc : Nat → Nat)
    (ws : List (List Nat)) :
    genLoop c (fuel+1) y rdr buf acc ws =
      (match genStep c y rdr buf acc with
       | (rdr1, buf1, acc1, ok, emit) =>
         if ok then genLoop c fuel (y+1) rdr1 buf1 acc1 (ws ++ emit)
         else (rdr1, ws, false)) := rfl

theorem mixscan_padBuf_entry (rows : List (List Nat)) (w h ch sval ow y j cc r : Nat)
    (acc1 : Nat → Nat)
    (hch : 1 ≤ ch) (hs : 1 ≤ sval) (hs16 : sval ≤ 16)
    (hval : ∀ rr ∈ rows, ∀ v ∈ rr, v ≤ 255)
    (hj : j < ow) (hcc : cc < ch)
    (hry : r ≤ y) (hrs : r < sval)
    (ha : acc1 (j*ch+cc) = ∑ dy ∈ Finset.range r,
      rowWin rows w h ch sval (y - r + dy) j cc) :
    jpegshrink_mixscan (padBuf rows w h ch (ow*sval) y) acc1 ow sval ch (j*ch+cc) =
      ∑ dy ∈ Finset.range (r+1), rowWin rows w h ch sval (y - r + dy) j cc := by
  have hsum : ∑ dx ∈ Finset.range sval,
      padBuf rows w h ch (ow*sval) y ((j*sval+dx)*ch + cc)
      = rowWin rows w h ch sval y j cc :=
    padBuf_winSum rows w h ch sval ow y j cc hcc hj hs
  have hA : sval * 255 ≤ 4080 := by omega
  have hacc : acc1 (j*ch+cc) ≤ r * (sval * 255) := by
    rw [ha]
    exact sum_range_le _ _ _ (fun dy _ => rowWin_le rows w h ch sval _ j cc hval)
  have hwin : rowWin rows w h ch sval y j cc ≤ sval * 255 :=
    rowWin_le rows w h ch sval y j cc hval
  have hr1 : (r+1) * (sval*255) ≤ sval * (sval*255) := Nat.mul_le_mul_right _ (by omega)
  have hss : sval * (sval*255) ≤ 65280 := by
    calc sval * (sval*255) ≤ 16 * (sval*255) := Nat.mul_le_mul_right _ hs16
    _ ≤ 16 * 4080 := Nat.mul_le_mul_left _ hA
    _ = 65280 := by norm_num
  have he : (r+1) * (sval*255) = r * (sval*255) + sval*255 := by ring
  have hb : acc1 (j*ch+cc) + ∑ dx ∈ Finset.range sval,
      padBuf rows w h ch (ow*sval) y ((j*sval+dx)*ch + cc) < 65536 := by
    rw [hsum]
    omega
  rw [mixscan_entry_nomod (padBuf rows w h ch (ow*sval) y) acc1 ow sval ch j cc
    hs hj hcc hb, hsum, ha, Finset.sum_range_succ]
  congr 1
  congr 1
  omega


theorem genStep_eq (rows : List (List Nat)) (w h ch sval ow y : Nat) (buf acc : Nat → Nat)
    (hw : 1 ≤ w) (hch : 1 ≤ ch) (hh1 : 1 ≤ h)
    (hrowslen : rows.length = h)
    (hlen : ∀ r ∈ rows, r.length = w * ch)
    (hwow : w ≤ ow * sval)
    (hbufI : (y = 0 ∧ buf = fun _ => 0) ∨
      (1 ≤ y ∧ buf = padBuf rows w h ch (ow*sval) (y-1))) :
    genStep ⟨w,h,ch,sval,ow⟩ y (readerAt rows w h ch y) buf acc =
      (readerAt rows w h ch (y+1), padBuf rows w h ch (ow*sval) y,
       jpegshrink_mixscan (padBuf rows w h ch (ow*sval) y)
         (if y % sval = 0 then (fun i => if i < ow*ch then 0 else acc i) else acc)
         ow sval ch,
       true,
       if y % sval ≥ sval - 1 then
         [jpegshrink_avgblit
           (jpegshrink_mixscan (padBuf rows w h ch (ow*sval) y)
             (if y % sval = 0 then (fun i => if i < ow*ch then 0 else acc i) else acc)
             ow sval ch) (ow*ch) sval]
       else []) := by
  have hbufz : ∀ t, (ow*sval) * ch ≤ t → buf t = 0 := by
    rcases hbufI with ⟨h0, hb⟩ | ⟨h1, hb⟩
    · intro t ht
      rw [hb]
    · intro t ht
      rw [hb]
      unfold padBuf
      rw [if_neg (by omega)]
  by_cases hy : y < h
  · have hlenY : (rows.getD y []).length = w * ch := by
      have hylt : y < rows.length := by omega
      have hg : rows.getD y [] = rows[y] := by
        simp [List.getD_eq_getElem?_getD, List.getElem?_eq_getElem hylt]
      rw [hg]
      exact hlen _ (List.getElem_mem _)
    have hpb := read_pad_eq_padBuf rows w h ch (ow*sval) (ow*sval - w) y buf
      hw hch hy hlenY (by omega) hbufz
    simp only [genStep, GenCtx.padCount, GenCtx.outSamples]
    rw [if_pos (show y < h from hy), readerAt_get rows w h ch y hy hrowslen]
    dsimp only
    rw [hpb]
    simp
    split_ifs <;> rfl
  · rcases hbufI with ⟨h0, hb⟩ | ⟨h1, hb⟩
    · omega
    · have hbb : buf = padBuf rows w h ch (ow*sval) y := by
        rw [hb]
        exact padBuf_stable rows w h ch (ow*sval) (y-1) y (by omega) (by omega)
      simp only [genStep, GenCtx.padCount, GenCtx.outSamples]
      rw [if_neg (show ¬ (y < h) from hy), readerAt_stable rows w h ch y (by omega), hbb]
      simp
      split_ifs <;> rfl


theorem div_le_255 (a s : Nat) (hs : 1 ≤ s) (ha : a ≤ s*s*255) : a / (s*s) ≤ 255 := by
  have hA : 1 ≤ s*s := Nat.mul_le_mul hs hs
  have h : a / (s*s) < 256 := by
    rw [Nat.div_lt_iff_lt_mul (by omega)]
    omega
  omega

theorem mixstep_entries (rows : List (List Nat)) (w h ch sval ow y : Nat) (acc : Nat → Nat)
    (hch : 1 ≤ ch) (hs : 1 ≤ sval) (hs16 : sval ≤ 16)
    (hval : ∀ rr ∈ rows, ∀ v ∈ rr, v ≤ 255)
    (haccI : ∀ j cc, j < ow → cc < ch → y % sval ≠ 0 →
      acc (j*ch+cc) = ∑ dy ∈ Finset.range (y % sval),
        rowWin rows w h ch sval (y - y % sval + dy) j cc)
    (j cc : Nat) (hj : j < ow) (hcc : cc < ch) :
    jpegshrink_mixscan (padBuf rows w h ch (ow*sval) y)
      (if y % sval = 0 then (fun i => if i < ow*ch then 0 else acc i) else acc)
      ow sval ch (j*ch+cc) =
    ∑ dy ∈ Finset.range (y % sval + 1),
      rowWin rows w h ch sval (y - y % sval + dy) j cc := by
  by_cases hr0 : y % sval = 0
  · have hidx : j*ch+cc < ow*ch := by
      have h1 : (j+1)*ch ≤ ow*ch := Nat.mul_le_mul_right _ (by omega)
      have h2 : (j+1)*ch = j*ch + ch := by ring
      omega
    have ha : (if y % sval = 0 then (fun i => if i < ow*ch then 0 else acc i) else acc)
        (j*ch+cc) = ∑ dy ∈ Finset.range 0,
          rowWin rows w h ch sval (y - 0 + dy) j cc := by
      rw [if_pos hr0]
      simp [hidx]
    have hmix := mixscan_padBuf_entry rows w h ch sval ow y j cc 0 _
      hch hs hs16 hval hj hcc (by omega) (by omega) ha
    rw [hmix, hr0]
  · have ha : (if y % sval = 0 then (fun i => if i < ow*ch then 0 else acc i) else acc)
        (j*ch+cc) = ∑ dy ∈ Finset.range (y % sval),
          rowWin rows w h ch sval (y - y % sval + dy) j cc := by
      rw [if_neg hr0]
      exact haccI j cc hj hcc hr0
    have hrs : y % sval < sval := Nat.mod_lt _ (by omega)
    exact mixscan_padBuf_entry rows w h ch sval ow y j cc (y % sval) _
      hch hs hs16 hval hj hcc (Nat.mod_le _ _) hrs ha

theorem emit_row_eq (rows : List (List Nat)) (w h ch sval ow y : Nat) (acc : Nat → Nat)
    (hch : 1 ≤ ch) (hs : 1 ≤ sval) (hs16 : sval ≤ 16)
    (hval : ∀ rr ∈ rows, ∀ v ∈ rr, v ≤ 255)
    (hmod : y % sval = sval - 1)
    (haccI : ∀ j cc, j < ow → cc < ch → y % sval ≠ 0 →
      acc (j*ch+cc) = ∑ dy ∈ Finset.range (y % sval),
        rowWin rows w h ch sval (y - y % sval + dy) j cc) :
    jpegshrink_avgblit
      (jpegshrink_mixscan (padBuf rows w h ch (ow*sval) y)
        (if y % sval = 0 then (fun i => if i < ow*ch then 0 else acc i) else acc)
        ow sval ch) (ow*ch) sval
      = specRow rows w h ch sval ow (y / sval) := by
  have hentry : ∀ i, i < ow*ch →
      jpegshrink_mixscan (padBuf rows w h ch (ow*sval) y)
        (if y % sval = 0 then (fun i => if i < ow*ch then 0 else acc i) else acc)
        ow sval ch i = winSum rows w h ch sval (y / sval) (i / ch) (i % ch) := by
    intro i hi2
    obtain ⟨hd1, hd2, hd3⟩ := idx_decomp i ow ch hch hi2
    have hst := mixstep_entries rows w h ch sval ow y acc hch hs hs16 hval haccI
      (i/ch) (i%ch) hd1 hd2
    rw [hd3] at hst
    rw [hst]
    unfold winSum
    have h1 : y % sval + 1 = sval := by omega
    have hstart : y - y % sval = (y/sval) * sval := by
      have hdm := Nat.div_add_mod y sval
      have hcm : sval * (y/sval) = (y/sval) * sval := Nat.mul_comm _ _
      omega
    rw [h1]
    apply Finset.sum_congr rfl
    intro dy _
    congr 1
    omega
  have hbound : ∀ i, i < ow*ch →
      jpegshrink_mixscan (padBuf rows w h ch (ow*sval) y)
        (if y % sval = 0 then (fun i => if i < ow*ch then 0 else acc i) else acc)
        ow sval ch i ≤ sval*sval*255 := by
    intro i hi2
    rw [hentry i hi2]
    exact winSum_le rows w h ch sval _ _ _ hval
  rw [avgblit_apply _ _ _ hs hbound]
  unfold specRow
  apply List.map_congr_left
  intro i hi
  have hi2 : i < ow*ch := List.mem_range.mp hi
  rw [hentry i hi2]
  have hle : winSum rows w h ch sval (y/sval) (i/ch) (i%ch) / (sval*sval) ≤ 255 :=
    div_le_255 _ sval hs (winSum_le rows w h ch sval _ _ _ hval)
  rw [Nat.min_eq_left hle]

theorem genLoop_inv (rows : List (List Nat)) (w h ch sval ow oh : Nat)
    (hw : 1 ≤ w) (hh1 : 1 ≤ h) (hch : 1 ≤ ch) (hs : 1 ≤ sval) (hs16 : sval ≤ 16)
    (hrowslen : rows.length = h)
    (hlen : ∀ r ∈ rows, r.length = w * ch)
    (hval : ∀ r ∈ rows, ∀ v ∈ r, v ≤ 255)
    (hwow : w ≤ ow * sval) (hhoh : h ≤ oh * sval) :
    ∀ fuel y (buf acc : Nat → Nat) (ws : List (List Nat)),
      y + fuel = oh * sval →
      ((y = 0 ∧ buf = fun _ => 0) ∨
        (1 ≤ y ∧ buf = padBuf rows w h ch (ow*sval) (y-1))) →
      (∀ j cc, j < ow → cc < ch → y % sval ≠ 0 →
        acc (j*ch+cc) = ∑ dy ∈ Finset.range (y % sval),
          rowWin rows w h ch sval (y - y % sval + dy) j cc) →
      genLoop ⟨w,h,ch,sval,ow⟩ fuel y (readerAt rows w h ch y) buf acc ws =
        (readerAt rows w h ch (oh*sval),
         ws ++ (List.range (oh - y / sval)).map
           (fun k => specRow rows w h ch sval ow (y / sval + k)),
         true) := by
  intro fuel
  induction fuel with
  | zero =>
    intro y buf acc ws hfy hbufI haccI
    have hy : y = oh * sval := by omega
    subst hy
    have hq : (oh * sval) / sval = oh := Nat.mul_div_cancel _ (by omega)
    show (readerAt rows w h ch (oh*sval), ws, true) = _
    rw [hq]
    simp
  | succ n ih =>
    intro y buf acc ws hfy hbufI haccI
    have hylt : y < oh * sval := by omega
    rw [genLoop_succ,
      genStep_eq rows w h ch sval ow y buf acc hw hch hh1 hrowslen hlen hwow hbufI]
    dsimp only
    rw [if_pos rfl]
    have hbufN : (1:Nat) ≤ y + 1 ∧ padBuf rows w h ch (ow*sval) y
        = padBuf rows w h ch (ow*sval) (y+1-1) := by
      constructor
      · omega
      · simp
    have hq : y / sval < oh := by
      rw [Nat.div_lt_iff_lt_mul (by omega)]
      exact hylt
    by_cases hemit : y % sval ≥ sval - 1
    · have hrs : y % sval < sval := Nat.mod_lt _ (by omega)
      have hmod : y % sval = sval - 1 := by omega
      have hdm := div_mod_succ_eq sval y hs hmod
      rw [if_pos hemit]
      have haccN : ∀ j cc, j < ow → cc < ch → (y+1) % sval ≠ 0 →
          jpegshrink_mixscan (padBuf rows w h ch (ow*sval) y)
            (if y % sval = 0 then (fun i => if i < ow*ch then 0 else acc i) else acc)
            ow sval ch (j*ch+cc)
          = ∑ dy ∈ Finset.range ((y+1) % sval),
            rowWin rows w h ch sval (y+1 - (y+1) % sval + dy) j cc := by
        intro j cc hj hcc hne
        exact absurd hdm.2 hne
      have hih := ih (y+1) (padBuf rows w h ch (ow*sval) y)
        (jpegshrink_mixscan (padBuf rows w h ch (ow*sval) y)
          (if y % sval = 0 then (fun i => if i < ow*ch then 0 else acc i) else acc)
          ow sval ch)
        (ws ++ [jpegshrink_avgblit
          (jpegshrink_mixscan (padBuf rows w h ch (ow*sval) y)
            (if y % sval = 0 then (fun i => if i < ow*ch then 0 else acc i) else acc)
            ow sval ch) (ow*ch) sval])
        (by omega) (Or.inr hbufN) haccN
      rw [hih, hdm.1]
      rw [emit_row_eq rows w h ch sval ow y acc hch hs hs16 hval hmod haccI]
      have hsplit : oh - y/sval = (oh - (y/sval + 1)) + 1 := by omega
      rw [hsplit, range_map_shift]
      rw [List.append_assoc, List.singleton_append]
    · rw [if_neg hemit, List.append_nil]
      have hne : y % sval + 1 < sval := by
        have hrs : y % sval < sval := Nat.mod_lt _ (by omega)
        omega
      have hm := div_mod_succ_lt sval y hne
      have haccN : ∀ j cc, j < ow → cc < ch → (y+1) % sval ≠ 0 →
          jpegshrink_mixscan (padBuf rows w h ch (ow*sval) y)
            (if y % sval = 0 then (fun i => if i < ow*ch then 0 else acc i) else acc)
            ow sval ch (j*ch+cc)
          = ∑ dy ∈ Finset.range ((y+1) % sval),
            rowWin rows w h ch sval (y+1 - (y+1) % sval + dy) j cc := by
        intro j cc hj hcc _
        rw [hm.2,
          mixstep_entries rows w h ch sval ow y acc hch hs hs16 hval haccI j cc hj hcc]
        have hmle := Nat.mod_le y sval
        apply Finset.sum_congr rfl
        intro dy _
        congr 1
        omega
      have hih := ih (y+1) (padBuf rows w h ch (ow*sval) y) _ ws (by omega)
        (Or.inr hbufN) haccN
      rw [hih, hm.1]


theorem fastLoop_succ (w ch fuel : Nat) (rdr : Reader) (buf : Nat → Nat)
    (ws : List (List Nat)) :
    fastLoop w ch (fuel+1) rdr buf ws =
      (match reader_get rdr with
       | (r1, data, okr) =>
         if okr then fastLoop w ch fuel r1 (writeScan buf data)
           (ws ++ [(List.range (w * ch)).map (writeScan buf data)])
         else (r1, ws, false)) := rfl

theorem writeScan_row (buf : Nat → Nat) (data : List Nat) (w ch : Nat)
    (hlen : data.length = w * ch) :
    (List.range (w * ch)).map (writeScan buf data) = data := by
  have h1 : ∀ j ∈ List.range (w * ch), writeScan buf data j = data.getD j 0 := by
    intro j hj
    unfold writeScan
    rw [if_pos (by rw [hlen]; exact List.mem_range.mp hj)]
  rw [List.map_congr_left h1, ← hlen, map_getD_range]

theorem fastLoop_inv (rows : List (List Nat)) (w h ch : Nat)
    (hrowslen : rows.length = h)
    (hlen : ∀ r ∈ rows, r.length = w * ch) :
    ∀ fuel y (buf : Nat → Nat) (ws : List (List Nat)),
      y + fuel = h →
      fastLoop w ch fuel (readerAt rows w h ch y) buf ws =
        (readerAt rows w h ch h,
         ws ++ (List.range fuel).map (fun k => rows.getD (y + k) []),
         true) := by
  intro fuel
  induction fuel with
  | zero =>
    intro y buf ws hfy
    have hy : y = h := by omega
    rw [hy]
    show (readerAt rows w h ch h, ws, true) = _
    simp
  | succ n ih =>
    intro y buf ws hfy
    rw [fastLoop_succ, readerAt_get rows w h ch y (by omega) hrowslen]
    dsimp only
    rw [if_pos rfl]
    have hlenY : (rows.getD y []).length = w * ch := by
      have hylt : y < rows.length := by omega
      have hg : rows.getD y [] = rows[y] := by
        simp [List.getD_eq_getElem?_getD, List.getElem?_eq_getElem hylt]
      rw [hg]
      exact hlen _ (List.getElem_mem _)
    rw [writeScan_row buf (rows.getD y []) w ch hlenY, ih (y+1) _ _ (by omega),
      List.append_assoc, List.singleton_append]
    have hshift := range_map_shift (fun q => rows.getD q []) y n
    simp only [] at hshift
    rw [← hshift]

theorem outDims_ge (w h sval : Nat) (hs : 1 ≤ sval) :
    w ≤ (outDims w h sval).1 * sval ∧ h ≤ (outDims w h sval).2 * sval := by
  unfold outDims
  by_cases h1 : sval ≤ 1
  · have hs1 : sval = 1 := by omega
    subst hs1
    simp
  · rw [if_neg h1]
    dsimp only
    have hcw : ∀ a : Nat, a ≤ (a / sval + (if a % sval ≠ 0 then 1 else 0)) * sval := by
      intro a
      have hdm := Nat.div_add_mod a sval
      have hr : a % sval < sval := Nat.mod_lt _ (by omega)
      by_cases hm : a % sval = 0
      · rw [if_neg (by simp [hm])]
        have he : (a / sval + 0) * sval = sval * (a / sval) := by ring
        omega
      · rw [if_pos hm]
        have he : (a / sval + 1) * sval = sval * (a / sval) + sval := by ring
        omega
    exact ⟨hcw w, hcw h⟩

theorem ceil_div_eq (a s : Nat) (hs : 1 ≤ s) :
    a / s + (if a % s ≠ 0 then 1 else 0) = (a + s - 1) / s := by
  have hr : a % s < s := Nat.mod_lt _ (by omega)
  have hdm := Nat.div_add_mod a s
  by_cases hm : a % s = 0
  · rw [if_neg (by simp [hm])]
    have ha : a + s - 1 = s * (a / s) + (s - 1) := by omega
    have h2 : (s - 1) / s = 0 := Nat.div_eq_of_lt (by omega)
    rw [ha, Nat.mul_add_div (by omega), h2]
  · rw [if_pos hm]
    have he : s * (a / s + 1) = s * (a / s) + s := by ring
    have ha : a + s - 1 = s * (a / s + 1) + (a % s - 1) := by omega
    have h2 : (a % s - 1) / s = 0 := Nat.div_eq_of_lt (by omega)
    rw [ha, Nat.mul_add_div (by omega), h2]

theorem outDims_eq_ceil (w h sval : Nat) (hs : 1 ≤ sval) :
    outDims w h sval = ((w + sval - 1) / sval, (h + sval - 1) / sval) := by
  unfold outDims
  by_cases h1 : sval ≤ 1
  · have hs1 : sval = 1 := by omega
    subst hs1
    simp
  · rw [if_neg h1]
    rw [Prod.mk.injEq]
    exact ⟨ceil_div_eq w sval hs, ceil_div_eq h sval hs⟩

theorem specRow_one (rows : List (List Nat)) (w h ch j : Nat)
    (hch : 1 ≤ ch) (hw : 1 ≤ w) (hj : j < h) (hrowslen : rows.length = h)
    (hlen : ∀ r ∈ rows, r.length = w * ch)
    (hval : ∀ r ∈ rows, ∀ v ∈ r, v ≤ 255) :
    specRow rows w h ch 1 w j = rows.getD j [] := by
  unfold specRow
  have h1 : ∀ t ∈ List.range (w * ch),
      min (winSum rows w h ch 1 j (t / ch) (t % ch) / (1 * 1)) 255
        = (rows.getD j []).getD t 0 := by
    intro t ht
    have ht2 : t < w * ch := List.mem_range.mp ht
    obtain ⟨hd1, hd2, hd3⟩ := idx_decomp t w ch hch ht2
    unfold winSum rowWin
    simp only [Finset.sum_range_one]
    unfold padSample sampleAt
    rw [Nat.mul_one, Nat.add_zero, Nat.mul_one, Nat.add_zero, Nat.div_one]
    have hminj : min j (h - 1) = j := by omega
    have hmint : min (t / ch) (w - 1) = t / ch := by omega
    rw [hminj, hmint, hd3]
    have hle : (rows.getD j []).getD t 0 ≤ 255 := by
      apply getD_le_of_forall
      intro v hv
      rcases lt_or_ge j rows.length with hjl | hjl
      · have hg : rows.getD j [] = rows[j] := by
          simp [List.getD_eq_getElem?_getD, List.getElem?_eq_getElem hjl]
        rw [hg] at hv
        exact hval _ (List.getElem_mem hjl) v hv
      · have hg : rows.getD j [] = [] := by
          simp [List.getD_eq_getElem?_getD, List.getElem?_eq_none hjl]
        rw [hg] at hv
        simp at hv
    omega
  rw [List.map_congr_left h1]
  have hlenY : (rows.getD j []).length = w * ch := by
    have hjlt : j < rows.length := by omega
    have hg : rows.getD j [] = rows[j] := by
      simp [List.getD_eq_getElem?_getD, List.getElem?_eq_getElem hjlt]
    rw [hg]
    exact hlen _ (List.getElem_mem _)
  rw [← hlenY, map_getD_range]


theorem readerAt_width (rows : List (List Nat)) (w h ch y : Nat) :
    (readerAt rows w h ch y).width = w := rfl

theorem readerAt_height (rows : List (List Nat)) (w h ch y : Nat) :
    (readerAt rows w h ch y).height = h := rfl

theorem readerAt_chcount (rows : List (List Nat)) (w h ch y : Nat) :
    (readerAt rows w h ch y).chcount = ch := rfl

theorem readerAt_status (rows : List (List Nat)) (w h ch y : Nat) :
    (readerAt rows w h ch y).status = SPH_JPEG_ERR_OK := rfl

theorem jpegshrink_ok (rows : List (List Nat)) (w h ch sval : Nat)
    (hw : 1 ≤ w) (hh1 : 1 ≤ h) (hch : 1 ≤ ch) (hs : 1 ≤ sval) (hs16 : sval ≤ 16)
    (hrowslen : rows.length = h)
    (hlen : ∀ r ∈ rows, r.length = w * ch)
    (hval : ∀ r ∈ rows, ∀ v ∈ r, v ≤ 255) :
    jpegshrink (readerAt rows w h ch 0) sval none =
      (0,
       (List.range (outDims w h sval).2).map
         (specRow rows w h ch sval (outDims w h sval).1),
       readerAt rows w h ch ((outDims w h sval).2 * sval)) := by
  obtain ⟨hwow, hhoh⟩ := outDims_ge w h sval hs
  have hstat : ¬((readerAt rows w h ch 0).status ≠ SPH_JPEG_ERR_OK) := by
    simp [readerAt_status]
  by_cases hs1 : sval ≤ 1
  · have hseq : sval = 1 := by omega
    subst hseq
    have hod : outDims w h 1 = (w, h) := by
      unfold outDims
      rw [if_pos (le_refl 1)]
    simp only [jpegshrink, readerAt_width, readerAt_height, readerAt_chcount]
    rw [if_neg hstat, hod]
    rw [if_pos (le_refl 1),
      fastLoop_inv rows w h ch hrowslen hlen h 0 (fun _ => 0) [] (by omega)]
    have hmap : ∀ k ∈ List.range h, rows.getD (0 + k) [] = specRow rows w h ch 1 w k := by
      intro k hk
      rw [Nat.zero_add,
        specRow_one rows w h ch k hch hw (List.mem_range.mp hk) hrowslen hlen hval]
    rw [List.map_congr_left hmap]
    simp only [List.nil_append, Nat.mul_one]
    rfl
  · have hs2 : 2 ≤ sval := by omega
    simp only [jpegshrink, readerAt_width, readerAt_height, readerAt_chcount]
    rw [if_neg hstat]
    rw [if_neg hs1,
      genLoop_inv rows w h ch sval (outDims w h sval).1 (outDims w h sval).2
        hw hh1 hch hs hs16 hrowslen hlen hval hwow hhoh
        ((outDims w h sval).2 * sval) 0 (fun _ => 0) (fun _ => 0) []
        (by omega) (Or.inl ⟨rfl, rfl⟩)
        (by
          intro j cc hj hcc hne
          exact absurd (Nat.zero_mod sval) hne)]
    simp only [Nat.zero_div, Nat.sub_zero, Nat.zero_add, List.nil_append]
    rfl


theorem reader_get_status_true (r r1 : Reader) (data : List Nat)
    (h : reader_get r = (r1, data, true)) : r1.status = r.status := by
  unfold reader_get at h
  by_cases h0 : r.status ≠ SPH_JPEG_ERR_OK
  · rw [if_pos h0] at h
    rw [Prod.mk.injEq, Prod.mk.injEq] at h
    exact absurd h.2.2 (by simp)
  · rw [if_neg h0] at h
    rcases hr : r.rows.getD r.readcount none with _ | scan
    · rw [hr] at h
      rw [Prod.mk.injEq, Prod.mk.injEq] at h
      exact absurd h.2.2 (by simp)
    · rw [hr] at h
      rw [Prod.mk.injEq, Prod.mk.injEq] at h
      rw [← h.1]

theorem reader_get_readcount (r : Reader) : (reader_get r).1.readcount = r.readcount + 1 := by
  unfold reader_get
  by_cases h0 : r.status ≠ SPH_JPEG_ERR_OK
  · rw [if_pos h0]
  · rw [if_neg h0]
    rcases hr : r.rows.getD r.readcount none with _ | scan <;> rfl

theorem genStep_fst (c : GenCtx) (y : Nat) (rdr : Reader) (buf acc : Nat → Nat) :
    (genStep c y rdr buf acc).1 = if y < c.h then (reader_get rdr).1 else rdr := by
  unfold genStep
  by_cases hy : y < c.h
  · rw [if_pos hy, if_pos hy]
    rcases hrg : reader_get rdr with ⟨r1, data, okr⟩
    dsimp only
    cases okr
    · rfl
    · split_ifs <;> rfl
  · rw [if_neg hy, if_neg hy]
    dsimp only
    split_ifs <;> rfl

theorem genStep_status_true (c : GenCtx) (y : Nat) (rdr rdr1 : Reader)
    (buf acc buf1 acc1 : Nat → Nat) (emit : List (List Nat))
    (h : genStep c y rdr buf acc = (rdr1, buf1, acc1, true, emit)) :
    rdr1.status = rdr.status := by
  have hfst : rdr1 = (genStep c y rdr buf acc).1 := by
    rw [h]
  rw [hfst, genStep_fst]
  by_cases hy : y < c.h
  · rw [if_pos hy]
    rcases hrg : reader_get rdr with ⟨r1, data, okr⟩
    cases okr
    · exfalso
      unfold genStep at h
      rw [if_pos hy, hrg] at h
      dsimp only at h
      rw [Prod.mk.injEq, Prod.mk.injEq, Prod.mk.injEq, Prod.mk.injEq] at h
      exact absurd h.2.2.2.1 (by simp)
    · show (r1, data, true).1.status = rdr.status
      exact reader_get_status_true rdr r1 data hrg
  · rw [if_neg hy]

theorem genLoop_status_true (c : GenCtx) :
    ∀ fuel y (rdr : Reader) (buf acc : Nat → Nat) (ws : List (List Nat))
      (rdr2 : Reader) (ws2 : List (List Nat)),
      genLoop c fuel y rdr buf acc ws = (rdr2, ws2, true) → rdr2.status = rdr.status := by
  intro fuel
  induction fuel with
  | zero =>
    intro y rdr buf acc ws rdr2 ws2 h
    have h1 : (rdr, ws, true) = ((rdr2, ws2, true) : Reader × List (List Nat) × Bool) := h
    rw [Prod.mk.injEq] at h1
    rw [← h1.1]
  | succ n ih =>
    intro y rdr buf acc ws rdr2 ws2 h
    rw [genLoop_succ] at h
    rcases hgs : genStep c y rdr buf acc with ⟨rdr1, buf1, acc1, ok, emit⟩
    rw [hgs] at h
    cases ok
    · dsimp only at h
      rw [Prod.mk.injEq, Prod.mk.injEq] at h
      exact absurd h.2.2 (by simp)
    · dsimp only at h
      rw [if_pos rfl] at h
      have h1 := ih (y+1) rdr1 buf1 acc1 (ws ++ emit) rdr2 ws2 h
      rw [h1]
      exact genStep_status_true c y rdr rdr1 buf acc buf1 acc1 emit hgs

theorem fastLoop_status_true (w ch : Nat) :
    ∀ fuel (rdr : Reader) (buf : Nat → Nat) (ws : List (List Nat))
      (rdr2 : Reader) (ws2 : List (List Nat)),
      fastLoop w ch fuel rdr buf ws = (rdr2, ws2, true) → rdr2.status = rdr.status := by
  intro fuel
  induction fuel with
  | zero =>
    intro rdr buf ws rdr2 ws2 h
    have h1 : (rdr, ws, true) = ((rdr2, ws2, true) : Reader × List (List Nat) × Bool) := h
    rw [Prod.mk.injEq] at h1
    rw [← h1.1]
  | succ n ih =>
    intro rdr buf ws rdr2 ws2 h
    rw [fastLoop_succ] at h
    rcases hrg : reader_get rdr with ⟨r1, data, okr⟩
    rw [hrg] at h
    cases okr
    · dsimp only at h
      rw [Prod.mk.injEq, Prod.mk.injEq] at h
      exact absurd h.2.2 (by simp)
    · dsimp only at h
      rw [if_pos rfl] at h
      have h1 := ih r1 _ _ rdr2 ws2 h
      rw [h1]
      exact reader_get_status_true rdr r1 data hrg

theorem genLoop_read_le (c : GenCtx) :
    ∀ fuel y (rdr : Reader) (buf acc : Nat → Nat) (ws : List (List Nat)),
      rdr.readcount = min y c.h →
      (genLoop c fuel y rdr buf acc ws).1.readcount ≤ c.h := by
  intro fuel
  induction fuel with
  | zero =>
    intro y rdr buf acc ws hrc
    show rdr.readcount ≤ c.h
    omega
  | succ n ih =>
    intro y rdr buf acc ws hrc
    rw [genLoop_succ]
    rcases hgs : genStep c y rdr buf acc with ⟨rdr1, buf1, acc1, ok, emit⟩
    have hr1 : rdr1.readcount = if y < c.h then rdr.readcount + 1 else rdr.readcount := by
      have := genStep_fst c y rdr buf acc
      rw [hgs] at this
      dsimp only at this
      rw [this]
      by_cases hy : y < c.h
      · rw [if_pos hy, if_pos hy, reader_get_readcount]
      · rw [if_neg hy, if_neg hy]
    have hr2 : rdr1.readcount = min (y+1) c.h := by
      by_cases hy : y < c.h
      · rw [hr1, if_pos hy]
        omega
      · rw [hr1, if_neg hy]
        omega
    cases ok
    · dsimp only
      show rdr1.readcount ≤ c.h
      omega
    · dsimp only
      rw [if_pos rfl]
      exact ih (y+1) rdr1 buf1 acc1 (ws ++ emit) hr2

theorem fastLoop_read_le (w ch : Nat) :
    ∀ fuel (rdr : Reader) (buf : Nat → Nat) (ws : List (List Nat)),
      (fastLoop w ch fuel rdr buf ws).1.readcount ≤ rdr.readcount + fuel := by
  intro fuel
  induction fuel with
  | zero =>
    intro rdr buf ws
    show rdr.readcount ≤ rdr.readcount + 0
    omega
  | succ n ih =>
    intro rdr buf ws
    rw [fastLoop_succ]
    rcases hrg : reader_get rdr with ⟨r1, data, okr⟩
    have hr1 : r1.readcount = rdr.readcount + 1 := by
      have := reader_get_readcount rdr
      rw [hrg] at this
      exact this
    cases okr
    · dsimp only
      show r1.readcount ≤ rdr.readcount + (n+1)
      omega
    · dsimp only
      rw [if_pos rfl]
      have := ih r1 (writeScan buf data)
        (ws ++ [(List.range (w * ch)).map (writeScan buf data)])
      omega


theorem jpegshrink_openfail (rdr : Reader) (sval : Nat) (b : Option JPEGSHRINK_BOUNDS)
    (h0 : rdr.status ≠ SPH_JPEG_ERR_OK) :
    jpegshrink rdr sval b = ((rdr.status : Int), [], rdr) := by
  unfold jpegshrink
  rw [if_pos h0]

theorem jpegshrink_reject (rdr : Reader) (sval : Nat) (bb : JPEGSHRINK_BOUNDS)
    (h0 : rdr.status = SPH_JPEG_ERR_OK)
    (hrej : boundsViolated bb (outDims rdr.width rdr.height sval).1
      (outDims rdr.width rdr.height sval).2 = true) :
    jpegshrink rdr sval (some bb) = (-1, [], rdr) := by
  unfold jpegshrink
  rw [if_neg (by simp [h0])]
  dsimp only
  rw [hrej, if_pos rfl]

theorem jpegshrink_noreject (rdr : Reader) (sval : Nat) (b : Option JPEGSHRINK_BOUNDS)
    (h0 : rdr.status = SPH_JPEG_ERR_OK)
    (hrej : ∀ bb, b = some bb → boundsViolated bb (outDims rdr.width rdr.height sval).1
      (outDims rdr.width rdr.height sval).2 = false) :
    ∃ (rdr2 : Reader) (ws2 : List (List Nat)) (ok2 : Bool),
      jpegshrink rdr sval b =
        ((if ok2 = true then (0:Int) else (rdr2.status : Int)), ws2, rdr2) ∧
      (ok2 = true → rdr2.status = rdr.status) ∧
      (rdr.readcount = 0 → rdr2.readcount ≤ rdr.height) := by
  unfold jpegshrink
  rw [if_neg (by simp [h0])]
  cases b with
  | none =>
    dsimp only
    rw [if_neg (by simp)]
    by_cases hs1 : sval ≤ 1
    · rw [if_pos hs1]
      rcases hfl : fastLoop rdr.width rdr.chcount rdr.height rdr (fun _ => 0) []
        with ⟨rdr2, ws2, ok2⟩
      refine ⟨rdr2, ws2, ok2, ?_, ?_, ?_⟩
      · cases ok2 <;> simp
      · intro hok
        subst hok
        exact fastLoop_status_true rdr.width rdr.chcount rdr.height rdr _ [] rdr2 ws2 hfl
      · intro hrc
        have hb := fastLoop_read_le rdr.width rdr.chcount rdr.height rdr (fun _ => 0) []
        rw [hfl] at hb
        dsimp at hb
        omega
    · rw [if_neg hs1]
      rcases hfl : genLoop
          { w := rdr.width, h := rdr.height, ch := rdr.chcount, sval := sval,
            ow := (outDims rdr.width rdr.height sval).1 }
          ((outDims rdr.width rdr.height sval).2 * sval) 0 rdr (fun _ => 0) (fun _ => 0) []
        with ⟨rdr2, ws2, ok2⟩
      refine ⟨rdr2, ws2, ok2, ?_, ?_, ?_⟩
      · cases ok2 <;> simp
      · intro hok
        subst hok
        exact genLoop_status_true _ _ 0 rdr _ _ [] rdr2 ws2 hfl
      · intro hrc
        have hb := genLoop_read_le
          { w := rdr.width, h := rdr.height, ch := rdr.chcount, sval := sval,
            ow := (outDims rdr.width rdr.height sval).1 }
          ((outDims rdr.width rdr.height sval).2 * sval) 0 rdr (fun _ => 0) (fun _ => 0) []
          (by simp [hrc])
        rw [hfl] at hb
        dsimp at hb
        exact hb
  | some bb =>
    dsimp only
    rw [hrej bb rfl]
    rw [if_neg (by simp)]
    by_cases hs1 : sval ≤ 1
    · rw [if_pos hs1]
      rcases hfl : fastLoop rdr.width rdr.chcount rdr.height rdr (fun _ => 0) []
        with ⟨rdr2, ws2, ok2⟩
      refine ⟨rdr2, ws2, ok2, ?_, ?_, ?_⟩
      · cases ok2 <;> simp
      · intro hok
        subst hok
        exact fastLoop_status_true rdr.width rdr.chcount rdr.height rdr _ [] rdr2 ws2 hfl
      · intro hrc
        have hb := fastLoop_read_le rdr.width rdr.chcount rdr.height rdr (fun _ => 0) []
        rw [hfl] at hb
        dsimp at hb
        omega
    · rw [if_neg hs1]
      rcases hfl : genLoop
          { w := rdr.width, h := rdr.height, ch := rdr.chcount, sval := sval,
            ow := (outDims rdr.width rdr.height sval).1 }
          ((outDims rdr.width rdr.height sval).2 * sval) 0 rdr (fun _ => 0) (fun _ => 0) []
        with ⟨rdr2, ws2, ok2⟩
      refine ⟨rdr2, ws2, ok2, ?_, ?_, ?_⟩
      · cases ok2 <;> simp
      · intro hok
        subst hok
        exact genLoop_status_true _ _ 0 rdr _ _ [] rdr2 ws2 hfl
      · intro hrc
        have hb := genLoop_read_le
          { w := rdr.width, h := rdr.height, ch := rdr.chcount, sval := sval,
            ow := (outDims rdr.width rdr.height sval).1 }
          ((outDims rdr.width rdr.height sval).2 * sval) 0 rdr (fun _ => 0) (fun _ => 0) []
          (by simp [hrc])
        rw [hfl] at hb
        dsimp at hb
        exact hb


theorem vertMix_go (ow sval ch : Nat) (hch : 1 ≤ ch) (hs : 1 ≤ sval) :
    ∀ (scans : List (Nat → Nat)) (acc : Nat → Nat) (B : Nat),
      (∀ sc ∈ scans, ∀ t, sc t ≤ 255) →
      (∀ t, acc t ≤ B) →
      B + scans.length * (sval * 255) < 65536 →
      (∀ t, vertMixG 65536 scans ow sval ch acc t = vertMixG 0 scans ow sval ch acc t) ∧
      (∀ t, vertMixG 0 scans ow sval ch acc t ≤ B + scans.length * (sval * 255)) ∧
      (∀ j cc, j < ow → cc < ch →
        vertMixG 0 scans ow sval ch acc (j*ch+cc) = acc (j*ch+cc) +
          (scans.map (fun sc => ∑ dx ∈ Finset.range sval,
            sc ((j*sval+dx)*ch+cc))).sum) := by
  intro scans
  induction scans with
  | nil =>
    intro acc B hv hB hlt
    refine ⟨fun t => rfl, fun t => by simpa using hB t, fun j cc hj hcc => by simp [vertMixG]⟩
  | cons sc rest ih =>
    intro acc B hv hB hlt
    have hvs : ∀ t, sc t ≤ 255 := hv sc (List.mem_cons_self sc rest)
    have hlen1 : (sc :: rest).length * (sval * 255)
        = rest.length * (sval * 255) + sval * 255 := by
      rw [List.length_cons]
      ring
    have hSle : ∀ j cc, (∑ dx ∈ Finset.range sval, sc ((j*sval+dx)*ch+cc)) ≤ sval * 255 :=
      fun j cc => sum_range_le _ _ _ (fun dx _ => hvs _)
    have h1 : ∀ t, mixscanG 65536 sc acc ow sval ch t = mixscanG 0 sc acc ow sval ch t := by
      intro t
      rcases lt_or_ge t (ow*ch) with ht | ht
      · obtain ⟨hd1, hd2, hd3⟩ := idx_decomp t ow ch hch ht
        rw [← hd3, mixscanG_entry 65536 sc acc ow sval ch _ _ hs hd1 hd2,
          mixscanG_entry 0 sc acc ow sval ch _ _ hs hd1 hd2, Nat.mod_zero,
          Nat.mod_eq_of_lt]
        have := hSle (t/ch) (t%ch)
        have := hB (t/ch*ch + t%ch)
        omega
      · rw [mixscanG_untouched 65536 sc acc ow sval ch t hs ht,
          mixscanG_untouched 0 sc acc ow sval ch t hs ht]
    have h2 : ∀ t, mixscanG 0 sc acc ow sval ch t ≤ B + sval * 255 := by
      intro t
      rcases lt_or_ge t (ow*ch) with ht | ht
      · obtain ⟨hd1, hd2, hd3⟩ := idx_decomp t ow ch hch ht
        rw [← hd3, mixscanG_entry 0 sc acc ow sval ch _ _ hs hd1 hd2, Nat.mod_zero]
        have := hSle (t/ch) (t%ch)
        have := hB (t/ch*ch + t%ch)
        omega
      · rw [mixscanG_untouched 0 sc acc ow sval ch t hs ht]
        have := hB t
        omega
    have hih := ih (mixscanG 0 sc acc ow sval ch) (B + sval * 255)
      (fun s2 hs2 => hv s2 (List.mem_cons_of_mem sc hs2)) h2 (by omega)
    have hfeq : mixscanG 65536 sc acc ow sval ch = mixscanG 0 sc acc ow sval ch :=
      funext h1
    refine ⟨?_, ?_, ?_⟩
    · intro t
      show vertMixG 65536 rest ow sval ch (mixscanG 65536 sc acc ow sval ch) t
        = vertMixG 0 rest ow sval ch (mixscanG 0 sc acc ow sval ch) t
      rw [hfeq]
      exact hih.1 t
    · intro t
      show vertMixG 0 rest ow sval ch (mixscanG 0 sc acc ow sval ch) t ≤ _
      have := hih.2.1 t
      omega
    · intro j cc hj hcc
      show vertMixG 0 rest ow sval ch (mixscanG 0 sc acc ow sval ch) (j*ch+cc) = _
      rw [hih.2.2 j cc hj hcc,
        mixscanG_entry 0 sc acc ow sval ch j cc hs hj hcc, Nat.mod_zero,
        List.map_cons, List.sum_cons]
      ring

/-- C2: with samples in [0,255], channel count 1 or 3 and a reduction
factor `1 ≤ sval ≤ JPEGSHRINK_MAXSHRINK = 16`, a full vertical window of
`sval` mixed scanlines gives every accumulator entry exactly the
`sval * sval`-term window sum, which is at most `sval² * 255 ≤ 65280`,
and the 16-bit accumulation (`% 65536`) computes exactly the same values
as ideal unbounded accumulation — unsigned 16-bit wraparound never
occurs. -/
theorem C2_accumulator_no_overflow (scans : List (Nat → Nat)) (ow sval ch : Nat)
    (hch : ch = 1 ∨ ch = 3) (hs : 1 ≤ sval) (hs16 : sval ≤ JPEGSHRINK_MAXSHRINK)
    (hcnt : scans.length = sval)
    (hv : ∀ sc ∈ scans, ∀ t, sc t ≤ 255) :
    (∀ t, vertMixG 65536 scans ow sval ch (fun _ => 0) t =
      vertMixG 0 scans ow sval ch (fun _ => 0) t) ∧
    (∀ j cc, j < ow → cc < ch →
      vertMixG 0 scans ow sval ch (fun _ => 0) (j*ch+cc) =
        (scans.map (fun sc => ∑ dx ∈ Finset.range sval,
          sc ((j*sval+dx)*ch+cc))).sum) ∧
    (∀ t, vertMixG 0 scans ow sval ch (fun _ => 0) t ≤ sval * sval * 255) ∧
    sval * sval * 255 ≤ 65280 := by
  have hch1 : 1 ≤ ch := by rcases hch with h | h <;> omega
  have hs16n : sval ≤ 16 := hs16
  have hA : sval * 255 ≤ 4080 := by omega
  have hss : sval * (sval * 255) ≤ 65280 := by
    calc sval * (sval * 255) ≤ 16 * (sval * 255) := Nat.mul_le_mul_right _ hs16n
    _ ≤ 16 * 4080 := Nat.mul_le_mul_left _ hA
    _ = 65280 := by norm_num
  have hassoc : sval * sval * 255 = sval * (sval * 255) := by ring
  have hgo := vertMix_go ow sval ch hch1 hs scans (fun _ => 0) 0 hv (fun t => Nat.le_refl 0)
    (by rw [hcnt]; omega)
  refine ⟨hgo.1, ?_, ?_, by omega⟩
  · intro j cc hj hcc
    have := hgo.2.2 j cc hj hcc
    simpa using this
  · intro t
    have := hgo.2.1 t
    rw [hcnt] at this
    omega

/-- C3: for widths and heights in `[1, SPH_JPEG_MAXDIM]` and a reduction
factor in `[1, 16]`, the output-dimension computation of `jpegshrink`
yields `ceil(W/s)` and `ceil(H/s)` (written `(W + s - 1) / s`), and at
`s = 1` the output dimensions equal the input dimensions exactly. -/
theorem C3_output_dimensions (w h sval : Nat)
    (hw1 : 1 ≤ w) (hw2 : w ≤ SPH_JPEG_MAXDIM)
    (hh1 : 1 ≤ h) (hh2 : h ≤ SPH_JPEG_MAXDIM)
    (hs : 1 ≤ sval) (hs16 : sval ≤ 16) :
    outDims w h sval = ((w + sval - 1) / sval, (h + sval - 1) / sval) ∧
    outDims w h 1 = (w, h) := by
  refine ⟨outDims_eq_ceil w h sval hs, ?_⟩
  unfold outDims
  rw [if_pos (le_refl 1)]

theorem C3_output_dimensions_witness :
    ((1:Nat) ≤ 5 ∧ (5:Nat) ≤ SPH_JPEG_MAXDIM ∧ (1:Nat) ≤ 3 ∧ (1:Nat) ≤ 2 ∧ (2:Nat) ≤ 16) ∧
    (outDims 5 3 2 = ((5 + 2 - 1) / 2, (3 + 2 - 1) / 2) ∧ outDims 5 3 1 = (5, 3)) :=
  ⟨⟨by decide, by decide, by decide, by decide, by decide⟩,
   C3_output_dimensions 5 3 2 (by decide) (by decide) (by decide) (by decide)
     (by decide) (by decide)⟩

/-- C10: under the structural precondition that every accumulator entry
is at most `sval² * 255`, the divisor `sval²` is at least one (never a
division by zero), every quotient is already in [0,255], both clamping
branches of `jpegshrink_avgblit` are unreachable (the clamp is the
identity on each quotient), and the blit equals plain truncating
division by `sval²`. -/
theorem C10_avgblit_clamp_unreachable (acc : Nat → Nat) (out_samples sval : Nat)
    (hs : 1 ≤ sval) (hs16 : sval ≤ JPEGSHRINK_MAXSHRINK)
    (hb : ∀ i, i < out_samples → acc i ≤ sval * sval * 255) :
    1 ≤ sval * sval ∧
    (∀ i, i < out_samples →
      clampSample ((acc i : Int) / ((sval : Int) * (sval : Int)))
        = (acc i : Int) / ((sval : Int) * (sval : Int))) ∧
    jpegshrink_avgblit acc out_samples sval =
      (List.range out_samples).map (fun i => acc i / (sval * sval)) ∧
    (∀ i, i < out_samples → acc i / (sval * sval) ≤ 255) := by
  have hA : 1 ≤ sval * sval := Nat.mul_le_mul hs hs
  refine ⟨hA, ?_, avgblit_apply acc out_samples sval hs hb, ?_⟩
  · intro i hi
    have hq255 : acc i / (sval * sval) ≤ 255 := div_le_255 _ sval hs (hb i hi)
    have h1 : ((sval : Int)) * (sval : Int) = ((sval * sval : Nat) : Int) := by
      push_cast
      ring
    have hval2 : ((acc i : Int)) / ((sval : Int) * (sval : Int)) =
        ((acc i / (sval * sval) : Nat) : Int) := by
      rw [h1, ← Int.natCast_div]
    rw [hval2]
    unfold clampSample
    rw [if_neg (not_lt.mpr (Int.natCast_nonneg _)),
      if_neg (not_lt.mpr (by exact_mod_cast hq255))]
  · intro i hi
    exact div_le_255 _ sval hs (hb i hi)

theorem C10_avgblit_clamp_unreachable_witness :
    ((1:Nat) ≤ 2 ∧ (2:Nat) ≤ JPEGSHRINK_MAXSHRINK ∧
      (∀ i, i < 3 → (fun i => i * 100) i ≤ 2 * 2 * 255)) ∧
    jpegshrink_avgblit (fun i => i * 100) 3 2 = [0, 25, 50] := by
  constructor
  · exact ⟨by decide, by decide, by decide⟩
  · have h := C10_avgblit_clamp_unreachable (fun i => i * 100) 3 2 (by decide)
      (by decide) (by decide)
    rw [h.2.2.1]
    decide

/-- C5: the pointer-walking accumulation of `jpegshrink_mixscan` is
equivalent to explicit window partitioning (`mixscanWindowed`, iterating
the output pixel then the `sval` contributing input pixels): pointwise
the two produce the same accumulator; for every output pixel `j` and
channel `cc` the entry receives exactly the sum of channel `cc` of input
pixels `j*sval .. j*sval + sval - 1` (in the accumulator's 16-bit
arithmetic), and no accumulator cell outside the `out_width * ch` output
region is changed. -/
theorem C5_mixscan_window_equivalence (inScan acc : Nat → Nat)
    (out_width sval ch : Nat)
    (hch : ch = 1 ∨ ch = 3) (hs : 1 ≤ sval) (hs16 : sval ≤ JPEGSHRINK_MAXSHRINK)
    (how : 1 ≤ out_width) :
    (∀ t, jpegshrink_mixscan inScan acc out_width sval ch t =
       mixscanWindowed 65536 inScan acc out_width sval ch t) ∧
    (∀ j cc, j < out_width → cc < ch →
       jpegshrink_mixscan inScan acc out_width sval ch (j*ch+cc) =
         (acc (j*ch+cc) + ∑ dx ∈ Finset.range sval, inScan ((j*sval+dx)*ch+cc))
           % 65536) ∧
    (∀ t, out_width * ch ≤ t →
       jpegshrink_mixscan inScan acc out_width sval ch t = acc t) := by
  refine ⟨?_, ?_, ?_⟩
  · intro t
    rw [jpegshrink_mixscan, mixscanG_eq_flat 65536 inScan acc out_width sval ch hs,
      mixscanWindowed_eq_flatMixG]
  · intro j cc hj hcc
    rw [jpegshrink_mixscan]
    exact mixscanG_entry 65536 inScan acc out_width sval ch j cc hs hj hcc
  · intro t ht
    rw [jpegshrink_mixscan]
    exact mixscanG_untouched 65536 inScan acc out_width sval ch t hs ht

theorem C5_mixscan_window_equivalence_witness :
    ((1:Nat) = 1 ∨ (1:Nat) = 3) ∧
    ((∀ t, jpegshrink_mixscan (fun t => t % 7) (fun _ => 5) 2 2 1 t =
       mixscanWindowed 65536 (fun t => t % 7) (fun _ => 5) 2 2 1 t) ∧
     (∀ j cc, j < 2 → cc < 1 →
       jpegshrink_mixscan (fun t => t % 7) (fun _ => 5) 2 2 1 (j*1+cc) =
         ((fun _ => (5:Nat)) (j*1+cc) +
           ∑ dx ∈ Finset.range 2, (fun t => t % 7) ((j*2+dx)*1+cc)) % 65536) ∧
     (∀ t, 2 * 1 ≤ t →
       jpegshrink_mixscan (fun t => t % 7) (fun _ => 5) 2 2 1 t = (fun _ => (5:Nat)) t)) :=
  ⟨Or.inl rfl,
   C5_mixscan_window_equivalence (fun t => t % 7) (fun _ => 5) 2 2 1
     (Or.inl rfl) (by decide) (by decide) (by decide)⟩


/-- C1: for every input image with samples in [0,255], channel count 1
or 3, and every reduction factor `sval ∈ [1, JPEGSHRINK_MAXSHRINK]`, a
successful shrink returns status 0 and each sample of each output
scanline equals the sum of the corresponding `sval × sval` window of the
edge-padded input divided by `sval²` with truncating division and
clamped to [0,255] (`specRow`); the 4×4 / s=2 instance in the witness
evaluates to [[35,55],[115,135]]. -/
theorem C1_shrink_box_filter (rows : List (List Nat)) (w h ch sval : Nat)
    (hw : 1 ≤ w) (hh : 1 ≤ h) (hch : ch = 1 ∨ ch = 3)
    (hs : 1 ≤ sval) (hs16 : sval ≤ JPEGSHRINK_MAXSHRINK)
    (hrowslen : rows.length = h)
    (hlen : ∀ r ∈ rows, r.length = w * ch)
    (hval : ∀ r ∈ rows, ∀ v ∈ r, v ≤ 255) :
    (jpegshrink (readerAt rows w h ch 0) sval none).1 = 0 ∧
    (jpegshrink (readerAt rows w h ch 0) sval none).2.1 =
      (List.range (outDims w h sval).2).map
        (specRow rows w h ch sval (outDims w h sval).1) := by
  have hch1 : 1 ≤ ch := by rcases hch with h1 | h1 <;> omega
  have hok := jpegshrink_ok rows w h ch sval hw hh hch1 hs hs16 hrowslen hlen hval
  rw [hok]
  exact ⟨rfl, rfl⟩

theorem C1_shrink_box_filter_witness :
    ((1:Nat) ≤ 4 ∧ ((1:Nat) = 1 ∨ (1:Nat) = 3) ∧ (2:Nat) ≤ JPEGSHRINK_MAXSHRINK) ∧
    (jpegshrink (readerAt [[10,20,30,40],[50,60,70,80],[90,100,110,120],
        [130,140,150,160]] 4 4 1 0) 2 none).1 = 0 ∧
    (jpegshrink (readerAt [[10,20,30,40],[50,60,70,80],[90,100,110,120],
        [130,140,150,160]] 4 4 1 0) 2 none).2.1 = [[35, 55], [115, 135]] := by
  have h := C1_shrink_box_filter
    [[10,20,30,40],[50,60,70,80],[90,100,110,120],[130,140,150,160]] 4 4 1 2
    (by decide) (by decide) (Or.inl rfl) (by decide) (by decide) rfl
    (by decide) (by decide)
  refine ⟨⟨by decide, Or.inl rfl, by decide⟩, h.1, ?_⟩
  rw [h.2]
  decide

theorem rows_id (rows : List (List Nat)) (w h ch : Nat)
    (hch : 1 ≤ ch) (hw : 1 ≤ w) (hrowslen : rows.length = h)
    (hlen : ∀ r ∈ rows, r.length = w * ch)
    (hval : ∀ r ∈ rows, ∀ v ∈ r, v ≤ 255) :
    (List.range h).map (fun k => specRow rows w h ch 1 w k) = rows := by
  have h1 : ∀ k ∈ List.range h, specRow rows w h ch 1 w k = rows.getD k [] := by
    intro k hk
    exact specRow_one rows w h ch k hch hw (List.mem_range.mp hk) hrowslen hlen hval
  rw [List.map_congr_left h1, ← hrowslen, map_getD_range]

/-- C6: for every valid input image, shrinking with `sval = 1` (the fast
copy path) produces output scanlines byte-identical to the input
scanlines, and the general windowed path executed with `sval = 1`
(`genLoop` with scale 1 over the same reader) produces the same bytes —
the two paths are numerically identical. -/
theorem C6_identity_fast_path (rows : List (List Nat)) (w h ch : Nat)
    (hw : 1 ≤ w) (hh : 1 ≤ h) (hch : ch = 1 ∨ ch = 3)
    (hrowslen : rows.length = h)
    (hlen : ∀ r ∈ rows, r.length = w * ch)
    (hval : ∀ r ∈ rows, ∀ v ∈ r, v ≤ 255) :
    (jpegshrink (readerAt rows w h ch 0) 1 none).1 = 0 ∧
    (jpegshrink (readerAt rows w h ch 0) 1 none).2.1 = rows ∧
    (genLoop ⟨w, h, ch, 1, w⟩ h 0 (readerAt rows w h ch 0)
      (fun _ => 0) (fun _ => 0) []).2.1 = rows ∧
    (genLoop ⟨w, h, ch, 1, w⟩ h 0 (readerAt rows w h ch 0)
      (fun _ => 0) (fun _ => 0) []).2.2 = true := by
  have hch1 : 1 ≤ ch := by rcases hch with h1 | h1 <;> omega
  have hok := jpegshrink_ok rows w h ch 1 hw hh hch1 (by decide) (by decide)
    hrowslen hlen hval
  have hod : outDims w h 1 = (w, h) := by
    unfold outDims
    rw [if_pos (le_refl 1)]
  have hod1 : (outDims w h 1).1 = w := by rw [hod]
  have hod2 : (outDims w h 1).2 = h := by rw [hod]
  rw [hod1, hod2] at hok
  have hginv := genLoop_inv rows w h ch 1 w h hw hh hch1 (by decide) (by decide)
    hrowslen hlen hval (by omega) (by omega) h 0 (fun _ => 0) (fun _ => 0) []
    (by omega) (Or.inl ⟨rfl, rfl⟩)
    (by
      intro j cc hj hcc hne
      exact absurd (Nat.zero_mod 1) hne)
  refine ⟨?_, ?_, ?_, ?_⟩
  · rw [hok]
  · rw [hok]
    show (List.range h).map (specRow rows w h ch 1 w) = rows
    exact rows_id rows w h ch hch1 hw hrowslen hlen hval
  · rw [hginv]
    show [] ++ (List.range (h - 0 / 1)).map
      (fun k => specRow rows w h ch 1 w (0 / 1 + k)) = rows
    simp only [Nat.zero_div, Nat.sub_zero, Nat.zero_add, List.nil_append]
    exact rows_id rows w h ch hch1 hw hrowslen hlen hval
  · rw [hginv]

theorem C6_identity_fast_path_witness :
    ((1:Nat) ≤ 2 ∧ ((1:Nat) = 1 ∨ (1:Nat) = 3)) ∧
    (jpegshrink (readerAt [[9,8],[7,6]] 2 2 1 0) 1 none).2.1 = [[9,8],[7,6]] ∧
    (genLoop ⟨2, 2, 1, 1, 2⟩ 2 0 (readerAt [[9,8],[7,6]] 2 2 1 0)
      (fun _ => 0) (fun _ => 0) []).2.1 = [[9,8],[7,6]] := by
  have h := C6_identity_fast_path [[9,8],[7,6]] 2 2 1 (by decide) (by decide)
    (Or.inl rfl) rfl (by decide) (by decide)
  exact ⟨⟨by decide, Or.inl rfl⟩, h.2.1, h.2.2.1⟩

/-- C9: in one shrink invocation the decoder is read at most once per
vertical position (the reader consumes row `readcount` and increments
it) and at most H times in total — in any run, even a failing one, the
final readcount is at most the reader's height; on a successful run the
reader is read exactly H times, the general path pushes exactly
`out_height` scanlines (one per `y` with `y % sval = sval - 1`, since
`padded_height = out_height * sval` is an exact multiple of `sval`), and
the fast path pushes exactly H = out_height. -/
theorem C9_read_write_counts (rows : List (List Nat)) (w h ch sval : Nat)
    (hw : 1 ≤ w) (hh : 1 ≤ h) (hch : ch = 1 ∨ ch = 3)
    (hs : 1 ≤ sval) (hs16 : sval ≤ JPEGSHRINK_MAXSHRINK)
    (hrowslen : rows.length = h)
    (hlen : ∀ r ∈ rows, r.length = w * ch)
    (hval : ∀ r ∈ rows, ∀ v ∈ r, v ≤ 255) :
    (jpegshrink (readerAt rows w h ch 0) sval none).2.2.readcount = h ∧
    (jpegshrink (readerAt rows w h ch 0) sval none).2.1.length = (outDims w h sval).2 ∧
    ((outDims w h sval).2 * sval) % sval = 0 ∧
    (∀ (rdr : Reader) (b : Option JPEGSHRINK_BOUNDS), rdr.readcount = 0 →
      (jpegshrink rdr sval b).2.2.readcount ≤ rdr.height) := by
  have hch1 : 1 ≤ ch := by rcases hch with h1 | h1 <;> omega
  have hok := jpegshrink_ok rows w h ch sval hw hh hch1 hs hs16 hrowslen hlen hval
  refine ⟨?_, ?_, ?_, ?_⟩
  · rw [hok]
    show min ((outDims w h sval).2 * sval) h = h
    have := (outDims_ge w h sval hs).2
    omega
  · rw [hok]
    show ((List.range (outDims w h sval).2).map _).length = _
    rw [List.length_map, List.length_range]
  · exact Nat.mul_mod_left _ _
  · intro rdr b hrc
    by_cases h0 : rdr.status = SPH_JPEG_ERR_OK
    · by_cases hrej : ∃ bb, b = some bb ∧
        boundsViolated bb (outDims rdr.width rdr.height sval).1
          (outDims rdr.width rdr.height sval).2 = true
      · rcases hrej with ⟨bb, rfl, hv2⟩
        rw [jpegshrink_reject rdr sval bb h0 hv2]
        show rdr.readcount ≤ rdr.height
        omega
      · have hrej2 : ∀ bb, b = some bb →
            boundsViolated bb (outDims rdr.width rdr.height sval).1
              (outDims rdr.width rdr.height sval).2 = false := by
          intro bb hb2
          cases hbv : boundsViolated bb (outDims rdr.width rdr.height sval).1
            (outDims rdr.width rdr.height sval).2
          · rfl
          · exact absurd ⟨bb, hb2, hbv⟩ hrej
        obtain ⟨rdr2, ws2, ok2, heq, _, hread⟩ := jpegshrink_noreject rdr sval b h0 hrej2
        rw [heq]
        exact hread hrc
    · rw [jpegshrink_openfail rdr sval b h0]
      show rdr.readcount ≤ rdr.height
      omega

theorem C9_read_write_counts_witness :
    ((1:Nat) ≤ 4 ∧ (2:Nat) ≤ JPEGSHRINK_MAXSHRINK) ∧
    (jpegshrink (readerAt [[10,20,30,40],[50,60,70,80],[90,100,110,120],
        [130,140,150,160]] 4 4 1 0) 2 none).2.2.readcount = 4 ∧
    (jpegshrink (readerAt [[10,20,30,40],[50,60,70,80],[90,100,110,120],
        [130,140,150,160]] 4 4 1 0) 2 none).2.1.length = (outDims 4 4 2).2 := by
  have h := C9_read_write_counts
    [[10,20,30,40],[50,60,70,80],[90,100,110,120],[130,140,150,160]] 4 4 1 2
    (by decide) (by decide) (Or.inl rfl) (by decide) (by decide) rfl
    (by decide) (by decide)
  exact ⟨⟨by decide, by decide⟩, h.1, h.2.1⟩


theorem C2_accumulator_no_overflow_witness :
    ([(fun _ => 255), (fun _ => 255)] : List (Nat → Nat)).length = 2 ∧
    vertMixG 65536 [(fun _ => 255), (fun _ => 255)] 2 2 1 (fun _ => 0) 0 =
      vertMixG 0 [(fun _ => 255), (fun _ => 255)] 2 2 1 (fun _ => 0) 0 ∧
    2 * 2 * 255 ≤ 65280 := by
  have h := C2_accumulator_no_overflow [(fun _ => 255), (fun _ => 255)] 2 2 1
    (Or.inl rfl) (by decide) (by decide) rfl
    (by
      intro sc hsc t
      rcases List.mem_cons.mp hsc with h1 | h1
      · subst h1
        exact Nat.le_refl 255
      · rcases List.mem_cons.mp h1 with h2 | h2
        · subst h2
          exact Nat.le_refl 255
        · exact absurd h2 (List.not_mem_nil sc))
  exact ⟨rfl, h.1 0, h.2.2.2⟩

theorem jpegshrink_ne_neg_one (rdr : Reader) (sval : Nat) (b : Option JPEGSHRINK_BOUNDS)
    (hnr : ¬(rdr.status = SPH_JPEG_ERR_OK ∧ ∃ bb, b = some bb ∧
      boundsViolated bb (outDims rdr.width rdr.height sval).1
        (outDims rdr.width rdr.height sval).2 = true)) :
    (jpegshrink rdr sval b).1 ≠ -1 := by
  by_cases h0 : rdr.status = SPH_JPEG_ERR_OK
  · have hrej2 : ∀ bb, b = some bb →
        boundsViolated bb (outDims rdr.width rdr.height sval).1
          (outDims rdr.width rdr.height sval).2 = false := by
      intro bb hb2
      cases hbv : boundsViolated bb (outDims rdr.width rdr.height sval).1
        (outDims rdr.width rdr.height sval).2
      · rfl
      · exact absurd ⟨h0, bb, hb2, hbv⟩ hnr
    obtain ⟨rdr2, ws2, ok2, heq, _, _⟩ := jpegshrink_noreject rdr sval b h0 hrej2
    rw [heq]
    by_cases hok : ok2 = true
    · rw [if_pos hok]
      show (0 : Int) ≠ -1
      decide
    · rw [if_neg hok]
      show ((rdr2.status : Nat) : Int) ≠ -1
      have := Int.natCast_nonneg rdr2.status
      omega
  · rw [jpegshrink_openfail rdr sval b h0]
    have := Int.natCast_nonneg rdr.status
    omega

theorem long_short_max_min (ow oh : Nat) :
    ((if (oh : Int) > (ow : Int) then (oh : Int) else (ow : Int))
        = ((max ow oh : Nat) : Int)) ∧
    ((if (oh : Int) > (ow : Int) then (ow : Int) else (oh : Int))
        = ((min ow oh : Nat) : Int)) := by
  by_cases hc : (oh : Int) > (ow : Int)
  · have hn : ow ≤ oh := by exact_mod_cast le_of_lt hc
    rw [if_pos hc, if_pos hc, Nat.max_eq_right hn, Nat.min_eq_left hn]
    exact ⟨rfl, rfl⟩
  · have hn : oh ≤ ow := by
      have : ¬ (ow < oh) := by
        intro hlt
        exact hc (by exact_mod_cast hlt)
      omega
    rw [if_neg hc, if_neg hc, Nat.max_eq_left hn, Nat.min_eq_right hn]
    exact ⟨rfl, rfl⟩

theorem boundsViolated_iff (bb : JPEGSHRINK_BOUNDS) (ow oh : Nat) :
    boundsViolated bb ow oh = true ↔
      ((0 ≤ bb.max_long ∧ ((max ow oh : Nat) : Int) > bb.max_long) ∨
       (0 ≤ bb.max_short ∧ ((min ow oh : Nat) : Int) > bb.max_short) ∨
       (0 ≤ bb.max_width ∧ (ow : Int) > bb.max_width) ∨
       (0 ≤ bb.max_height ∧ (oh : Int) > bb.max_height) ∨
       (0 ≤ bb.max_pixels ∧ (ow : Int) * (oh : Int) > bb.max_pixels)) := by
  obtain ⟨hl, hs⟩ := long_short_max_min ow oh
  unfold boundsViolated
  rw [hl, hs]
  simp only [Bool.or_eq_true, decide_eq_true_eq]
  tauto

/-- C4: `jpegshrink` returns the distinguished constraint-violation code
-1 iff `pBounds` is present and at least one non-negative field is
exceeded by the computed output dimensions, where the long dimension is
`max(out_width, out_height)` with width winning ties, the short
dimension the other, and the pixel count `out_width * out_height`; on a
-1 return no output scanline is pushed (the encoder is never opened),
and with `pBounds` absent or every field negative, -1 is never
returned.  (Stated after a successful decoder open, `rdr.status = OK`,
since an open failure returns before the constraints are examined —
see C7.) -/
theorem C4_constraint_rejection (rdr : Reader) (sval : Nat)
    (b : Option JPEGSHRINK_BOUNDS) (ow oh : Nat)
    (h0 : rdr.status = SPH_JPEG_ERR_OK)
    (how : ow = (outDims rdr.width rdr.height sval).1)
    (hoh : oh = (outDims rdr.width rdr.height sval).2) :
    ((jpegshrink rdr sval b).1 = -1 ↔
      ∃ bb, b = some bb ∧ boundsViolated bb ow oh = true) ∧
    ((jpegshrink rdr sval b).1 = -1 → (jpegshrink rdr sval b).2.1 = []) ∧
    (b = none → (jpegshrink rdr sval b).1 ≠ -1) ∧
    (∀ bb, b = some bb → bb.max_long < 0 → bb.max_short < 0 → bb.max_width < 0 →
      bb.max_height < 0 → bb.max_pixels < 0 → (jpegshrink rdr sval b).1 ≠ -1) ∧
    (∀ bb : JPEGSHRINK_BOUNDS, boundsViolated bb ow oh = true ↔
      ((0 ≤ bb.max_long ∧ ((max ow oh : Nat) : Int) > bb.max_long) ∨
       (0 ≤ bb.max_short ∧ ((min ow oh : Nat) : Int) > bb.max_short) ∨
       (0 ≤ bb.max_width ∧ (ow : Int) > bb.max_width) ∨
       (0 ≤ bb.max_height ∧ (oh : Int) > bb.max_height) ∨
       (0 ≤ bb.max_pixels ∧ (ow : Int) * (oh : Int) > bb.max_pixels))) := by
  subst how
  subst hoh
  have hiff : (jpegshrink rdr sval b).1 = -1 ↔
      ∃ bb, b = some bb ∧ boundsViolated bb (outDims rdr.width rdr.height sval).1
        (outDims rdr.width rdr.height sval).2 = true := by
    constructor
    · intro hneg
      by_cases hrej : ∃ bb, b = some bb ∧
          boundsViolated bb (outDims rdr.width rdr.height sval).1
            (outDims rdr.width rdr.height sval).2 = true
      · exact hrej
      · exact absurd hneg (jpegshrink_ne_neg_one rdr sval b
          (by rintro ⟨_, bb, hb2, hv2⟩; exact hrej ⟨bb, hb2, hv2⟩))
    · rintro ⟨bb, rfl, hv2⟩
      rw [jpegshrink_reject rdr sval bb h0 hv2]
  refine ⟨hiff, ?_, ?_, ?_, fun bb => boundsViolated_iff bb _ _⟩
  · intro hneg
    obtain ⟨bb, rfl, hv2⟩ := hiff.mp hneg
    rw [jpegshrink_reject rdr sval bb h0 hv2]
  · intro hb
    subst hb
    apply jpegshrink_ne_neg_one
    rintro ⟨_, bb, hbb, _⟩
    exact Option.noConfusion hbb
  · intro bb hb2 h1 h2 h3 h4 h5
    subst hb2
    apply jpegshrink_ne_neg_one
    rintro ⟨_, bb2, hbb2, hv2⟩
    rw [Option.some.injEq] at hbb2
    subst hbb2
    rw [boundsViolated_iff] at hv2
    rcases hv2 with ⟨ha, _⟩ | ⟨ha, _⟩ | ⟨ha, _⟩ | ⟨ha, _⟩ | ⟨ha, _⟩ <;> omega

theorem C4_constraint_rejection_witness :
    (readerAt [[1]] 1 1 1 0).status = SPH_JPEG_ERR_OK ∧
    (jpegshrink (readerAt [[1]] 1 1 1 0) 1
      (some ⟨-1, -1, 0, -1, -1⟩)).1 = -1 ∧
    (jpegshrink (readerAt [[1]] 1 1 1 0) 1
      (some ⟨-1, -1, 0, -1, -1⟩)).2.1 = [] := by
  have h := C4_constraint_rejection (readerAt [[1]] 1 1 1 0) 1
    (some ⟨-1, -1, 0, -1, -1⟩)
    (outDims 1 1 1).1 (outDims 1 1 1).2 rfl rfl rfl
  have h1 : (jpegshrink (readerAt [[1]] 1 1 1 0) 1
      (some ⟨-1, -1, 0, -1, -1⟩)).1 = -1 :=
    h.1.mpr ⟨⟨-1, -1, 0, -1, -1⟩, rfl, by decide⟩
  exact ⟨rfl, h1, h.2.1 h1⟩

/-- C7: the return status of `jpegshrink` is exactly one of 0 (success,
the final reader status), a decoder error code (the final reader
status, as set by the open or a mid-stream read), or -1 for a
constraint violation; the two error families are never merged: -1 is
returned only for a constraint violation, every other return equals the
final reader status; a decoder-open failure is returned without the
constraints ever being examined (the result is the open status even
when violating bounds are supplied), while a constraint violation
returns -1 with the reader still in its OK state. -/
theorem C7_error_taxonomy (rdr : Reader) (sval : Nat) (b : Option JPEGSHRINK_BOUNDS) :
    (rdr.status ≠ SPH_JPEG_ERR_OK →
      jpegshrink rdr sval b = ((rdr.status : Int), [], rdr)) ∧
    (rdr.status = SPH_JPEG_ERR_OK → ∀ bb, b = some bb →
      boundsViolated bb (outDims rdr.width rdr.height sval).1
        (outDims rdr.width rdr.height sval).2 = true →
      jpegshrink rdr sval b = (-1, [], rdr)) ∧
    ((jpegshrink rdr sval b).1 = -1 ∨
      (jpegshrink rdr sval b).1 = (((jpegshrink rdr sval b).2.2.status : Nat) : Int)) ∧
    ((jpegshrink rdr sval b).1 = -1 →
      rdr.status = SPH_JPEG_ERR_OK ∧
      ∃ bb, b = some bb ∧ boundsViolated bb (outDims rdr.width rdr.height sval).1
        (outDims rdr.width rdr.height sval).2 = true) := by
  refine ⟨fun h0 => jpegshrink_openfail rdr sval b h0, ?_, ?_, ?_⟩
  · intro h0 bb hb2 hv2
    subst hb2
    exact jpegshrink_reject rdr sval bb h0 hv2
  · by_cases h0 : rdr.status = SPH_JPEG_ERR_OK
    · by_cases hrej : ∃ bb, b = some bb ∧
        boundsViolated bb (outDims rdr.width rdr.height sval).1
          (outDims rdr.width rdr.height sval).2 = true
      · rcases hrej with ⟨bb, rfl, hv2⟩
        rw [jpegshrink_reject rdr sval bb h0 hv2]
        left
        rfl
      · have hrej2 : ∀ bb, b = some bb →
            boundsViolated bb (outDims rdr.width rdr.height sval).1
              (outDims rdr.width rdr.height sval).2 = false := by
          intro bb hb2
          cases hbv : boundsViolated bb (outDims rdr.width rdr.height sval).1
            (outDims rdr.width rdr.height sval).2
          · rfl
          · exact absurd ⟨bb, hb2, hbv⟩ hrej
        obtain ⟨rdr2, ws2, ok2, heq, hst, _⟩ := jpegshrink_noreject rdr sval b h0 hrej2
        rw [heq]
        right
        by_cases hok : ok2 = true
        · rw [if_pos hok]
          show (0 : Int) = ((rdr2.status : Nat) : Int)
          rw [hst hok, h0]
          rfl
        · rw [if_neg hok]
    · rw [jpegshrink_openfail rdr sval b h0]
      right
      rfl
  · intro hneg
    by_cases h0 : rdr.status = SPH_JPEG_ERR_OK
    · by_cases hrej : ∃ bb, b = some bb ∧
        boundsViolated bb (outDims rdr.width rdr.height sval).1
          (outDims rdr.width rdr.height sval).2 = true
      · exact ⟨h0, hrej⟩
      · exact absurd hneg (jpegshrink_ne_neg_one rdr sval b
          (by rintro ⟨_, bb, hb2, hv2⟩; exact hrej ⟨bb, hb2, hv2⟩))
    · exact absurd hneg (jpegshrink_ne_neg_one rdr sval b
        (by rintro ⟨hOK, _⟩; exact h0 hOK))

theorem C7_error_taxonomy_witness :
    ({ width := 1, height := 1, chcount := 1, status := 2, rows := [],
        readcount := 0 } : Reader).status ≠ SPH_JPEG_ERR_OK ∧
    jpegshrink
      { width := 1, height := 1, chcount := 1, status := 2, rows := [], readcount := 0 }
      1 (some ⟨-1, -1, 0, -1, -1⟩) =
      ((2 : Int), [],
       { width := 1, height := 1, chcount := 1, status := 2, rows := [],
         readcount := 0 }) := by
  refine ⟨by decide, ?_⟩
  have h := (C7_error_taxonomy
    { width := 1, height := 1, chcount := 1, status := 2, rows := [], readcount := 0 }
    1 (some ⟨-1, -1, 0, -1, -1⟩)).1 (by decide)
  exact h

/-- C8: in the general path, for a virtual row `y ≥ H` no decoder read
and no horizontal-padding call occurs: `genStep` returns the reader and
the scanline buffer unchanged and mixes exactly the buffer's current
contents into the accumulator; the buffer contents carried into such
rows (`padBuf` at row `y - 1`) are bit-for-bit the padded last real
scanline — `padBuf` at row `H-1`, which is precisely the result of
reading row `H-1` and horizontally padding it. -/
theorem C8_vertical_padding (rows : List (List Nat)) (w h ch sval ow y : Nat)
    (rdr : Reader) (buf buf0 acc : Nat → Nat)
    (hw : 1 ≤ w) (hch : 1 ≤ ch) (hh1 : 1 ≤ h) (hy : h ≤ y)
    (hlenR : (rows.getD (h-1) []).length = w * ch)
    (hwow : w ≤ ow * sval)
    (hbuf0 : ∀ t, (ow * sval) * ch ≤ t → buf0 t = 0) :
    genStep ⟨w, h, ch, sval, ow⟩ y rdr buf acc =
      (rdr, buf,
       jpegshrink_mixscan buf
         (if y % sval = 0 then (fun i => if i < ow*ch then 0 else acc i) else acc)
         ow sval ch,
       true,
       if y % sval ≥ sval - 1 then
         [jpegshrink_avgblit (jpegshrink_mixscan buf
           (if y % sval = 0 then (fun i => if i < ow*ch then 0 else acc i) else acc)
           ow sval ch) (ow*ch) sval]
       else []) ∧
    padBuf rows w h ch (ow*sval) (y-1) = padBuf rows w h ch (ow*sval) (h-1) ∧
    jpegshrink_padscan (writeScan buf0 (rows.getD (h-1) [])) w (ow*sval - w) ch
      = padBuf rows w h ch (ow*sval) (h-1) := by
  refine ⟨?_, ?_, ?_⟩
  · simp only [genStep, GenCtx.padCount, GenCtx.outSamples]
    rw [if_neg (show ¬ (y < h) by omega)]
    simp
    split_ifs <;> rfl
  · exact padBuf_stable rows w h ch (ow*sval) (y-1) (h-1) (by omega) (by omega)
  · exact read_pad_eq_padBuf rows w h ch (ow*sval) (ow*sval - w) (h-1) buf0
      hw hch (by omega) hlenR (by omega) hbuf0

theorem C8_vertical_padding_witness :
    ((1:Nat) ≤ 1 ∧ (1:Nat) ≤ 3) ∧
    padBuf [[1, 2]] 2 1 1 (1 * 2) (3 - 1) = padBuf [[1, 2]] 2 1 1 (1 * 2) (1 - 1) :=
  ⟨⟨by decide, by decide⟩,
   (C8_vertical_padding [[1, 2]] 2 1 1 2 1 3
     { width := 2, height := 1, chcount := 1, status := 0,
       rows := [some [1, 2]], readcount := 0 }
     (fun _ => 0) (fun _ => 0) (fun _ => 0)
     (by decide) (by decide) (by decide) (by decide) (by decide) (by decide)
     (fun t ht => rfl)).2.1⟩

end JpegShrink
